import Mathlib

/-!
Verification of the `cs`-tag core of the alignparse repository
(`alignparse/cs_tag.py`).

Strings from the Python code are modelled as `List Char`.  Python
functions that can raise are modelled in the `Except String` monad, and
functions that can return Python `None` return `Option` values.  Every
`assert` of the source is modelled as an explicit check that produces an
`.error` when it fails, in the order the source executes it.
-/

namespace CsTag

/-! ## Character classes of the token grammar

The grammar comes from the regular expressions `_CS_OPS` in
`cs_tag.py`: identity `:[0-9]+`, substitution `*[acgtn][acgtn]`,
insertion `+[acgtn]+`, deletion `-[acgtn]+`. -/

/-- The lowercase base alphabet `[acgtn]` of the cs-tag grammar. -/
def isBase (c : Char) : Bool :=
  c == 'a' || c == 'c' || c == 'g' || c == 't' || c == 'n'

/-- The digit class `[0-9]` of the identity pattern. -/
def isDigitC (c : Char) : Bool :=
  c.isDigit

/-- A full match of the identity pattern `:[0-9]+`. -/
def isIdentityTok : List Char → Bool
  | c :: ds => c == ':' && (!ds.isEmpty && ds.all isDigitC)
  | [] => false

/-- A full match of the substitution pattern `*[acgtn][acgtn]`. -/
def isSubTok : List Char → Bool
  | [c, c1, c2] => c == '*' && (isBase c1 && isBase c2)
  | _ => false

/-- A full match of the insertion pattern `+[acgtn]+`. -/
def isInsTok : List Char → Bool
  | c :: bs => c == '+' && (!bs.isEmpty && bs.all isBase)
  | [] => false

/-- A full match of the deletion pattern `-[acgtn]+`. -/
def isDelTok : List Char → Bool
  | c :: bs => c == '-' && (!bs.isEmpty && bs.all isBase)
  | [] => false

/-- A full match of any single operation pattern of `_CS_OPS`. -/
def isTok (t : List Char) : Bool :=
  isIdentityTok t || isSubTok t || isInsTok t || isDelTok t

/-! ## Tokenizer

`_CS_STR_REGEX.fullmatch` matches `(id|sub|ins|del)*` against the whole
string and `m.captures(1)` returns the successive tokens.  Because no
token begins with a digit or a base character, the regex's greedy
backtracking search is equivalent to deterministic maximal munch: after
`:` the maximal digit run, after `+`/`-` the maximal base run, after `*`
exactly two bases.  `consumeToken` is that maximal-munch step. -/

/-- One maximal-munch step of the tokenizer: the next token and the rest
of the input, or `none` when the input starts with no valid token. -/
def consumeToken : List Char → Option (List Char × List Char)
  | ':' :: rest =>
    if (rest.takeWhile isDigitC).isEmpty then none
    else some (':' :: rest.takeWhile isDigitC, rest.dropWhile isDigitC)
  | '*' :: c1 :: c2 :: rest =>
    if isBase c1 && isBase c2 then some (['*', c1, c2], rest) else none
  | '+' :: rest =>
    if (rest.takeWhile isBase).isEmpty then none
    else some ('+' :: rest.takeWhile isBase, rest.dropWhile isBase)
  | '-' :: rest =>
    if (rest.takeWhile isBase).isEmpty then none
    else some ('-' :: rest.takeWhile isBase, rest.dropWhile isBase)
  | _ => none

/-- Fuelled tokenizer loop; each step consumes at least one character, so
any `fuel ≥ length` of the input is adequate. -/
def splitCsAux : Nat → List Char → Option (List (List Char))
  | _, [] => some []
  | 0, _ :: _ => none
  | fuel + 1, s =>
    match consumeToken s with
    | none => none
    | some (t, rest) =>
      match splitCsAux fuel rest with
      | none => none
      | some ts => some (t :: ts)

/-- `_CS_STR_REGEX.fullmatch(cs_string)` followed by `m.captures(1)`:
the token list of a valid cs string, `none` when the string is invalid. -/
def splitCs (s : List Char) : Option (List (List Char)) :=
  splitCsAux s.length s

/-- `split_cs(cs_string, invalid=...)` with its policy parameter: on a
valid string the match succeeds and the captures are returned without
ever inspecting `invalid`; on an invalid string the policy is consulted
(`ignore` returns Python `None`, `raise` raises, anything else raises
the `invalid invalid` error). -/
def split_cs (cs_string : List Char) (invalid : String) :
    Except String (Option (List (List Char))) :=
  match splitCs cs_string with
  | some toks => .ok (some toks)
  | none =>
    if invalid = "ignore" then .ok none
    else if invalid = "raise" then .error "invalid cs_string"
    else .error "invalid invalid"

/-! ## Operation classifier -/

/-- The four operation kinds named by the groups of `_CS_OP_REGEX`. -/
inductive OpType where
  | identity
  | substitution
  | insertion
  | deletion
deriving DecidableEq, Repr

/-- `_CS_OP_REGEX.fullmatch(cs_op)` and `m.lastgroup`: the kind of a
single full-token match, `none` for anything else.  The four patterns
are mutually exclusive (distinct leading characters). -/
def csOpType (t : List Char) : Option OpType :=
  if isIdentityTok t then some .identity
  else if isSubTok t then some .substitution
  else if isInsTok t then some .insertion
  else if isDelTok t then some .deletion
  else none

/-- `cs_op_type(cs_op, invalid=...)` with its policy parameter, same
shape as `split_cs`. -/
def cs_op_type (cs_op : List Char) (invalid : String) :
    Except String (Option OpType) :=
  match csOpType cs_op with
  | some k => .ok (some k)
  | none =>
    if invalid = "ignore" then .ok none
    else if invalid = "raise" then .error "invalid cs_op"
    else .error "invalid invalid"

/-- Python `int` on a nonempty digit string (the parse of `cs_op[1:]`
inside `cs_op_len_target` for identity tokens). -/
def digitsToNat (ds : List Char) : Nat :=
  ds.foldl (fun a c => a * 10 + (c.toNat - 48)) 0

/-- `cs_op_len_target(cs_op)` with the default `raise` policy collapsed
to `Option`: target length of a single operation (identity parses its
digit run, substitution is 1, deletion is the token length minus one,
insertion is 0); `none` on an invalid token, which the callers inside
the module turn into an error. -/
def cs_op_len_target (t : List Char) : Option Nat :=
  match csOpType t with
  | some .identity => some (digitsToNat (t.drop 1))
  | some .substitution => some 1
  | some .deletion => some (t.length - 1)
  | some .insertion => some 0
  | none => none

/-! ## Decimal rendering (Python `str`/f-string formatting of ints) -/

/-- The decimal digit character of `n % 10`. -/
def digitChar (n : Nat) : Char :=
  match n with
  | 0 => '0' | 1 => '1' | 2 => '2' | 3 => '3' | 4 => '4'
  | 5 => '5' | 6 => '6' | 7 => '7' | 8 => '8' | _ => '9'

/-- Most-significant-first digit expansion of a positive number; fuel
bounds the recursion depth (any fuel ≥ n is adequate). -/
def natToDigitsCore : Nat → Nat → List Char
  | 0, _ => []
  | fuel + 1, n =>
    if n = 0 then []
    else natToDigitsCore fuel (n / 10) ++ [digitChar (n % 10)]

/-- Python decimal formatting of a natural number. -/
def natToDigits (n : Nat) : List Char :=
  if n = 0 then ['0'] else natToDigitsCore (n + 1) n

/-! ## Tokenizer lemmas -/

theorem all_takeWhile (p : Char → Bool) (l : List Char) :
    (l.takeWhile p).all p = true := by
  induction l with
  | nil => rfl
  | cons c l ih =>
    by_cases hc : p c = true
    · simp [List.takeWhile, hc, ih]
    · simp only [List.takeWhile]
      rw [show p c = false by simpa using hc]
      rfl

theorem consumeToken_append {s t rest : List Char}
    (h : consumeToken s = some (t, rest)) : t ++ rest = s := by
  unfold consumeToken at h
  split at h
  case h_5 => exact absurd h (by simp)
  all_goals split at h
  all_goals
    simp only [Option.some.injEq, Prod.mk.injEq, reduceCtorEq] at h
  all_goals
    obtain ⟨rfl, rfl⟩ := h
  all_goals simp [List.takeWhile_append_dropWhile]

theorem consumeToken_isTok {s t rest : List Char}
    (h : consumeToken s = some (t, rest)) : isTok t = true := by
  unfold consumeToken at h
  split at h
  case h_5 => exact absurd h (by simp)
  all_goals split at h
  all_goals
    simp only [Option.some.injEq, Prod.mk.injEq, reduceCtorEq] at h
  all_goals
    obtain ⟨rfl, rfl⟩ := h
  all_goals
    simp_all [isTok, isIdentityTok, isSubTok, isInsTok, isDelTok,
              all_takeWhile]

/-- Shape of an identity token. -/
theorem isIdentityTok_shape {t : List Char} (h : isIdentityTok t = true) :
    ∃ ds, t = ':' :: ds ∧ ds ≠ [] ∧ ds.all isDigitC = true := by
  cases t with
  | nil => simp [isIdentityTok] at h
  | cons c ds =>
    simp only [isIdentityTok, Bool.and_eq_true, beq_iff_eq,
      Bool.not_eq_true'] at h
    exact ⟨ds, by rw [h.1], List.isEmpty_eq_false.mp h.2.1, h.2.2⟩

/-- Shape of a substitution token. -/
theorem isSubTok_shape {t : List Char} (h : isSubTok t = true) :
    ∃ c1 c2, t = ['*', c1, c2] ∧ isBase c1 = true ∧ isBase c2 = true := by
  cases t with
  | nil => simp [isSubTok] at h
  | cons c rest =>
    match rest with
    | [] => simp [isSubTok] at h
    | [_] => simp [isSubTok] at h
    | [c1, c2] =>
      simp only [isSubTok, Bool.and_eq_true, beq_iff_eq] at h
      exact ⟨c1, c2, by rw [h.1], h.2.1, h.2.2⟩
    | _ :: _ :: _ :: _ => simp [isSubTok] at h

/-- Shape of an insertion token. -/
theorem isInsTok_shape {t : List Char} (h : isInsTok t = true) :
    ∃ bs, t = '+' :: bs ∧ bs ≠ [] ∧ bs.all isBase = true := by
  cases t with
  | nil => simp [isInsTok] at h
  | cons c bs =>
    simp only [isInsTok, Bool.and_eq_true, beq_iff_eq,
      Bool.not_eq_true'] at h
    exact ⟨bs, by rw [h.1], List.isEmpty_eq_false.mp h.2.1, h.2.2⟩

/-- Shape of a deletion token. -/
theorem isDelTok_shape {t : List Char} (h : isDelTok t = true) :
    ∃ bs, t = '-' :: bs ∧ bs ≠ [] ∧ bs.all isBase = true := by
  cases t with
  | nil => simp [isDelTok] at h
  | cons c bs =>
    simp only [isDelTok, Bool.and_eq_true, beq_iff_eq,
      Bool.not_eq_true'] at h
    exact ⟨bs, by rw [h.1], List.isEmpty_eq_false.mp h.2.1, h.2.2⟩

theorem isTok_ne_nil {t : List Char} (h : isTok t = true) : t ≠ [] := by
  rintro rfl
  simp [isTok, isIdentityTok, isSubTok, isInsTok, isDelTok] at h

theorem consumeToken_shorter {s t rest : List Char}
    (h : consumeToken s = some (t, rest)) : rest.length < s.length := by
  have happ := consumeToken_append h
  have hne := isTok_ne_nil (consumeToken_isTok h)
  have hlen : s.length = t.length + rest.length := by
    rw [← happ, List.length_append]
  have hpos : 1 ≤ t.length := List.length_pos.mpr hne
  omega

theorem splitCsAux_join {fuel : Nat} :
    ∀ {s ts}, splitCsAux fuel s = some ts → ts.flatten = s := by
  induction fuel with
  | zero =>
    intro s ts h
    match s, h with
    | [], h => simp_all [splitCsAux]
  | succ fuel ih =>
    intro s ts h
    match s, h with
    | [], h => simp_all [splitCsAux]
    | c :: s', h =>
      rw [splitCsAux] at h
      case x_2 => simp
      match hc : consumeToken (c :: s') with
      | none => rw [hc] at h; exact absurd h (by simp)
      | some (t, rest) =>
        rw [hc] at h
        dsimp only at h
        match hrec : splitCsAux fuel rest with
        | none => rw [hrec] at h; exact absurd h (by simp)
        | some ts' =>
          rw [hrec] at h
          dsimp only at h
          simp only [Option.some.injEq] at h
          subst h
          simpa [List.flatten, ih hrec] using consumeToken_append hc

theorem splitCsAux_isTok {fuel : Nat} :
    ∀ {s ts}, splitCsAux fuel s = some ts → ∀ t ∈ ts, isTok t = true := by
  induction fuel with
  | zero =>
    intro s ts h
    match s, h with
    | [], h => simp_all [splitCsAux]
  | succ fuel ih =>
    intro s ts h
    match s, h with
    | [], h => simp_all [splitCsAux]
    | c :: s', h =>
      rw [splitCsAux] at h
      case x_2 => simp
      match hc : consumeToken (c :: s') with
      | none => rw [hc] at h; exact absurd h (by simp)
      | some (t, rest) =>
        rw [hc] at h
        dsimp only at h
        match hrec : splitCsAux fuel rest with
        | none => rw [hrec] at h; exact absurd h (by simp)
        | some ts' =>
          rw [hrec] at h
          dsimp only at h
          simp only [Option.some.injEq] at h
          subst h
          intro u hu
          rcases List.mem_cons.mp hu with rfl | hu
          · exact consumeToken_isTok hc
          · exact ih hrec u hu

/-- Every token list produced by `splitCs` joins back to the input. -/
theorem splitCs_sound {s : List Char} {ts : List (List Char)}
    (h : splitCs s = some ts) : ts.flatten = s :=
  splitCsAux_join h

theorem splitCs_isTok {s : List Char} {ts : List (List Char)}
    (h : splitCs s = some ts) : ∀ t ∈ ts, isTok t = true :=
  splitCsAux_isTok h

/-! ## Re-tokenization: a concatenation of well-formed tokens splits back
into exactly those tokens (used to discharge the final assertion of
`extract_cs`, which re-tokenizes the assembled feature string). -/

/-- The rest of the input begins with an operator character (or is
empty), so a maximal digit/base munch cannot run past a token
boundary. -/
def startsOp : List Char → Bool
  | [] => true
  | c :: _ => c == ':' || c == '*' || c == '+' || c == '-'

theorem takeWhile_append_stop {p : Char → Bool} {l r : List Char}
    (hl : l.all p = true)
    (hr0 : r = [] ∨ p (r.headD ':') = false) :
    (l ++ r).takeWhile p = l := by
  induction l with
  | nil =>
    cases r with
    | nil => rfl
    | cons c r' =>
      rcases hr0 with h | h
      · simp at h
      · simp only [List.headD] at h
        simp [List.takeWhile, h]
  | cons c l' ih =>
    simp only [List.all_cons, Bool.and_eq_true] at hl
    simp [List.takeWhile, hl.1, ih hl.2]

theorem dropWhile_append_stop {p : Char → Bool} {l r : List Char}
    (hl : l.all p = true)
    (hr0 : r = [] ∨ p (r.headD ':') = false) :
    (l ++ r).dropWhile p = r := by
  induction l with
  | nil =>
    cases r with
    | nil => rfl
    | cons c r' =>
      rcases hr0 with h | h
      · simp at h
      · simp only [List.headD] at h
        simp [List.dropWhile, h]
  | cons c l' ih =>
    simp only [List.all_cons, Bool.and_eq_true] at hl
    simp [List.dropWhile, hl.1, ih hl.2]

theorem startsOp_not_digit {r : List Char} (h : startsOp r = true) :
    r = [] ∨ isDigitC (r.headD ':') = false := by
  cases r with
  | nil => exact Or.inl rfl
  | cons c r' =>
    right
    simp only [startsOp, Bool.or_eq_true, beq_iff_eq] at h
    rcases h with ((rfl | rfl) | rfl) | rfl <;>
      simp only [List.headD_cons] <;> decide

theorem startsOp_not_base {r : List Char} (h : startsOp r = true) :
    r = [] ∨ isBase (r.headD ':') = false := by
  cases r with
  | nil => exact Or.inl rfl
  | cons c r' =>
    right
    simp only [startsOp, Bool.or_eq_true, beq_iff_eq] at h
    rcases h with ((rfl | rfl) | rfl) | rfl <;>
      simp only [List.headD_cons] <;> decide

theorem consumeToken_tok_append {t r : List Char}
    (ht : isTok t = true) (hr : startsOp r = true) :
    consumeToken (t ++ r) = some (t, r) := by
  simp only [isTok, Bool.or_eq_true] at ht
  rcases ht with ((h | h) | h) | h
  · obtain ⟨ds, rfl, hne, hall⟩ := isIdentityTok_shape h
    have htw : (ds ++ r).takeWhile isDigitC = ds :=
      takeWhile_append_stop hall (startsOp_not_digit hr)
    have hdw : (ds ++ r).dropWhile isDigitC = r :=
      dropWhile_append_stop hall (startsOp_not_digit hr)
    simp [consumeToken, htw, hdw, hne]
  · obtain ⟨c1, c2, rfl, h1, h2⟩ := isSubTok_shape h
    simp [consumeToken, h1, h2]
  · obtain ⟨bs, rfl, hne, hall⟩ := isInsTok_shape h
    have htw : (bs ++ r).takeWhile isBase = bs :=
      takeWhile_append_stop hall (startsOp_not_base hr)
    have hdw : (bs ++ r).dropWhile isBase = r :=
      dropWhile_append_stop hall (startsOp_not_base hr)
    simp [consumeToken, htw, hdw, hne]
  · obtain ⟨bs, rfl, hne, hall⟩ := isDelTok_shape h
    have htw : (bs ++ r).takeWhile isBase = bs :=
      takeWhile_append_stop hall (startsOp_not_base hr)
    have hdw : (bs ++ r).dropWhile isBase = r :=
      dropWhile_append_stop hall (startsOp_not_base hr)
    simp [consumeToken, htw, hdw, hne]

theorem isTok_startsOp_append {t r : List Char} (ht : isTok t = true) :
    startsOp (t ++ r) = true := by
  simp only [isTok, Bool.or_eq_true] at ht
  rcases ht with ((h | h) | h) | h
  · obtain ⟨ds, rfl, -, -⟩ := isIdentityTok_shape h; rfl
  · obtain ⟨c1, c2, rfl, -, -⟩ := isSubTok_shape h; rfl
  · obtain ⟨bs, rfl, -, -⟩ := isInsTok_shape h; rfl
  · obtain ⟨bs, rfl, -, -⟩ := isDelTok_shape h; rfl

theorem flatten_startsOp {ts : List (List Char)}
    (h : ∀ t ∈ ts, isTok t = true) : startsOp ts.flatten = true := by
  induction ts with
  | nil => rfl
  | cons t ts ih =>
    have ht := h t (List.mem_cons_self t ts)
    simpa [List.flatten] using @isTok_startsOp_append t ts.flatten ht

theorem length_le_length_flatten {ts : List (List Char)}
    (h : ∀ t ∈ ts, isTok t = true) : ts.length ≤ ts.flatten.length := by
  induction ts with
  | nil => simp
  | cons t ts ih =>
    have ht := isTok_ne_nil (h t (List.mem_cons_self t ts))
    have h1 : 1 ≤ t.length := List.length_pos.mpr ht
    have h2 := ih (fun u hu => h u (List.mem_cons_of_mem t hu))
    simp only [List.length_cons, List.flatten_cons, List.length_append]
    omega

theorem splitCsAux_flatten {fuel : Nat} :
    ∀ {ts : List (List Char)}, (∀ t ∈ ts, isTok t = true) →
    ts.length ≤ fuel → splitCsAux fuel ts.flatten = some ts := by
  induction fuel with
  | zero =>
    intro ts h hlen
    match ts, hlen with
    | [], _ => rfl
  | succ fuel ih =>
    intro ts h hlen
    match ts with
    | [] => rfl
    | t :: ts' =>
      have ht := h t (List.mem_cons_self t ts')
      have hne := isTok_ne_nil ht
      have hcons : consumeToken (t ++ ts'.flatten) = some (t, ts'.flatten) :=
        consumeToken_tok_append ht
          (flatten_startsOp (fun u hu => h u (List.mem_cons_of_mem t hu)))
      obtain ⟨c, t', rfl⟩ := List.exists_cons_of_ne_nil hne
      have hlen' : ts'.length ≤ fuel := by
        simp only [List.length_cons] at hlen; omega
      simp only [List.flatten_cons, List.cons_append] at hcons ⊢
      rw [splitCsAux]
      case x_2 => simp
      rw [hcons]
      dsimp only
      rw [ih (fun u hu => h u (List.mem_cons_of_mem _ hu)) hlen']

theorem splitCs_flatten {ts : List (List Char)}
    (h : ∀ t ∈ ts, isTok t = true) : splitCs ts.flatten = some ts :=
  splitCsAux_flatten h (length_le_length_flatten h)

/-! ## Decimal formatting lemmas -/

theorem digitChar_isDigit (n : Nat) : isDigitC (digitChar n) = true := by
  unfold digitChar
  split <;> decide

theorem digitChar_toNat {r : Nat} (h : r < 10) :
    (digitChar r).toNat - 48 = r := by
  revert h
  revert r
  decide

theorem natToDigitsCore_all_digits (fuel n : Nat) :
    (natToDigitsCore fuel n).all isDigitC = true := by
  induction fuel generalizing n with
  | zero => rfl
  | succ fuel ih =>
    unfold natToDigitsCore
    split
    · rfl
    · simp [List.all_append, ih, digitChar_isDigit]

theorem natToDigitsCore_ne_nil {fuel n : Nat} (hn : n ≠ 0) (hf : fuel ≠ 0) :
    natToDigitsCore fuel n ≠ [] := by
  match fuel, hf with
  | fuel + 1, _ =>
    unfold natToDigitsCore
    rw [if_neg hn]
    simp

theorem natToDigits_all_digits (n : Nat) :
    (natToDigits n).all isDigitC = true := by
  unfold natToDigits
  split
  · decide
  · exact natToDigitsCore_all_digits _ _

theorem natToDigits_ne_nil (n : Nat) : natToDigits n ≠ [] := by
  unfold natToDigits
  split
  · simp
  · exact natToDigitsCore_ne_nil (by assumption) (by omega)

theorem digitsToNat_append_digit (l : List Char) (c : Char) :
    digitsToNat (l ++ [c]) = 10 * digitsToNat l + (c.toNat - 48) := by
  unfold digitsToNat
  rw [List.foldl_append]
  simp [Nat.mul_comm]

theorem digitsToNat_natToDigitsCore {fuel n : Nat} (h : n ≤ fuel) :
    digitsToNat (natToDigitsCore fuel n) = n := by
  induction fuel generalizing n with
  | zero =>
    have : n = 0 := Nat.le_zero.mp h
    subst this
    rfl
  | succ fuel ih =>
    unfold natToDigitsCore
    split
    · subst ‹n = 0›; rfl
    · have hn : n ≠ 0 := by assumption
      have hdiv : n / 10 ≤ fuel := by
        have : n / 10 < n := Nat.div_lt_self (Nat.pos_of_ne_zero hn) (by omega)
        omega
      rw [digitsToNat_append_digit, ih hdiv, digitChar_toNat (Nat.mod_lt _ (by omega))]
      exact Nat.div_add_mod n 10

/-- Formatting then parsing a natural number is the identity
(`int(str(k)) == k`). -/
theorem digitsToNat_natToDigits (n : Nat) :
    digitsToNat (natToDigits n) = n := by
  unfold natToDigits
  split
  · subst ‹n = 0›; rfl
  · exact digitsToNat_natToDigitsCore (Nat.le_succ n)

/-! ## Classification lemmas -/

theorem isIdentityTok_eq_false_of_head (c : Char) {bs : List Char}
    (hc : c ≠ ':') : isIdentityTok (c :: bs) = false := by
  cases h : isIdentityTok (c :: bs)
  · rfl
  · obtain ⟨ds, heq, -, -⟩ := isIdentityTok_shape h
    simp only [List.cons.injEq] at heq
    exact absurd heq.1 hc

theorem isSubTok_eq_false_of_head (c : Char) {bs : List Char}
    (hc : c ≠ '*') : isSubTok (c :: bs) = false := by
  cases h : isSubTok (c :: bs)
  · rfl
  · obtain ⟨c1, c2, heq, -, -⟩ := isSubTok_shape h
    simp only [List.cons.injEq] at heq
    exact absurd heq.1 hc

theorem isInsTok_eq_false_of_head (c : Char) {bs : List Char}
    (hc : c ≠ '+') : isInsTok (c :: bs) = false := by
  cases h : isInsTok (c :: bs)
  · rfl
  · obtain ⟨ds, heq, -, -⟩ := isInsTok_shape h
    simp only [List.cons.injEq] at heq
    exact absurd heq.1 hc

theorem isDelTok_eq_false_of_head (c : Char) {bs : List Char}
    (hc : c ≠ '-') : isDelTok (c :: bs) = false := by
  cases h : isDelTok (c :: bs)
  · rfl
  · obtain ⟨ds, heq, -, -⟩ := isDelTok_shape h
    simp only [List.cons.injEq] at heq
    exact absurd heq.1 hc

theorem csOpType_of_identity {t : List Char} (h : isIdentityTok t = true) :
    csOpType t = some .identity := by
  simp [csOpType, h]

theorem csOpType_of_sub {t : List Char} (h : isSubTok t = true) :
    csOpType t = some .substitution := by
  obtain ⟨c1, c2, rfl, -, -⟩ := isSubTok_shape h
  simp [csOpType, h, isIdentityTok_eq_false_of_head '*' (by decide)]

theorem csOpType_of_ins {t : List Char} (h : isInsTok t = true) :
    csOpType t = some .insertion := by
  obtain ⟨bs, rfl, -, -⟩ := isInsTok_shape h
  simp [csOpType, h, isIdentityTok_eq_false_of_head '+' (by decide),
    isSubTok_eq_false_of_head '+' (by decide)]

theorem csOpType_of_del {t : List Char} (h : isDelTok t = true) :
    csOpType t = some .deletion := by
  obtain ⟨bs, rfl, -, -⟩ := isDelTok_shape h
  simp [csOpType, h, isIdentityTok_eq_false_of_head '-' (by decide),
    isSubTok_eq_false_of_head '-' (by decide),
    isInsTok_eq_false_of_head '-' (by decide)]

theorem csOpType_isSome_of_isTok {t : List Char} (h : isTok t = true) :
    ∃ k, csOpType t = some k := by
  simp only [isTok, Bool.or_eq_true] at h
  rcases h with ((h | h) | h) | h
  · exact ⟨_, csOpType_of_identity h⟩
  · exact ⟨_, csOpType_of_sub h⟩
  · exact ⟨_, csOpType_of_ins h⟩
  · exact ⟨_, csOpType_of_del h⟩

/-- `cs_op_len_target` never fails on a token produced by the grammar. -/
theorem cs_op_len_target_isSome_of_isTok {t : List Char}
    (h : isTok t = true) : ∃ k, cs_op_len_target t = some k := by
  obtain ⟨k, hk⟩ := csOpType_isSome_of_isTok h
  unfold cs_op_len_target
  rw [hk]
  cases k <;> exact ⟨_, rfl⟩

theorem cs_op_len_target_identity {ds : List Char}
    (h : isIdentityTok (':' :: ds) = true) :
    cs_op_len_target (':' :: ds) = some (digitsToNat ds) := by
  unfold cs_op_len_target
  rw [csOpType_of_identity h]
  rfl

theorem isIdentityTok_colon_natToDigits (k : Nat) :
    isIdentityTok (':' :: natToDigits k) = true := by
  simp [isIdentityTok, natToDigits_ne_nil, natToDigits_all_digits,
    List.isEmpty_eq_false.mpr (natToDigits_ne_nil k)]

theorem cs_op_len_target_colon_natToDigits (k : Nat) :
    cs_op_len_target (':' :: natToDigits k) = some k := by
  rw [cs_op_len_target_identity (isIdentityTok_colon_natToDigits k)]
  rw [digitsToNat_natToDigits]

theorem cs_op_len_target_sub {t : List Char} (h : isSubTok t = true) :
    cs_op_len_target t = some 1 := by
  unfold cs_op_len_target
  rw [csOpType_of_sub h]

theorem cs_op_len_target_ins {t : List Char} (h : isInsTok t = true) :
    cs_op_len_target t = some 0 := by
  unfold cs_op_len_target
  rw [csOpType_of_ins h]

theorem cs_op_len_target_del {bs : List Char}
    (h : isDelTok ('-' :: bs) = true) :
    cs_op_len_target ('-' :: bs) = some bs.length := by
  unfold cs_op_len_target
  rw [csOpType_of_del h]
  simp

/-! ## Claim C4: lossless tokenization -/

/-- C4: for every cs string that `split_cs` accepts as valid (under any
`invalid` policy), concatenating the returned token strings in order
reproduces the input string exactly. -/
theorem c4_split_cs_round_trip (s : List Char) (pol : String)
    (ts : List (List Char)) (h : split_cs s pol = .ok (some ts)) :
    ts.flatten = s := by
  unfold split_cs at h
  match hs : splitCs s with
  | some ts' =>
    rw [hs] at h
    simp only [Except.ok.injEq, Option.some.injEq] at h
    subst h
    exact splitCs_sound hs
  | none =>
    rw [hs] at h
    dsimp only at h
    split at h
    · exact absurd h (by simp)
    · split at h <;> exact absurd h (by simp)

/-- Witness for C4 at a concrete doctest input. -/
theorem c4_split_cs_round_trip_witness :
    ∃ ts, split_cs (":32*nt*na:10-gga:5+aaa:10".data) "raise" = .ok (some ts) ∧
      ts.flatten = ":32*nt*na:10-gga:5+aaa:10".data :=
  ⟨_, rfl, c4_split_cs_round_trip _ "raise" _ rfl⟩

/-! ## Claim C5: policy-flag validation -/

/-- C5 counterexample: on a *valid* input string, `split_cs` and
`cs_op_type` never inspect the policy flag, so an unrecognized policy
value such as "bogus" does not raise; the claim quantifies over every
input string, valid or invalid, and fails on valid ones. -/
theorem c5_counterexample :
    split_cs (":4".data) "bogus" = .ok (some [[':', '4']]) ∧
    cs_op_type (":4".data) "bogus" = .ok (some .identity) := by
  constructor <;> rfl

/-- C5 (amended): for every *invalid* input string, calling `split_cs`
or `cs_op_type` with an `invalid` policy value other than "raise" or
"ignore" raises the `invalid invalid` error; on valid inputs the policy
flag is never inspected. -/
theorem c5_invalid_policy_raises (s : List Char) (pol : String)
    (hp1 : pol ≠ "raise") (hp2 : pol ≠ "ignore") :
    (splitCs s = none → split_cs s pol = .error "invalid invalid") ∧
    (csOpType s = none → cs_op_type s pol = .error "invalid invalid") := by
  constructor
  · intro hs
    unfold split_cs
    rw [hs]
    dsimp only
    rw [if_neg hp2, if_neg hp1]
  · intro hs
    unfold cs_op_type
    rw [hs]
    dsimp only
    rw [if_neg hp2, if_neg hp1]

/-- Witness for C5 (amended) at a concrete invalid input. -/
theorem c5_invalid_policy_raises_witness :
    split_cs ("bad".data) "bogus" = .error "invalid invalid" ∧
    cs_op_type ("bad".data) "bogus" = .error "invalid invalid" := by
  have h := c5_invalid_policy_raises ("bad".data) "bogus"
    (by decide) (by decide)
  exact ⟨h.1 rfl, h.2 rfl⟩

/-! ## Structured operation tokens (the spec's data model, §3)

`Tok` is the tagged-variant representation the spec describes; the
source code works on raw token strings, so refinement claims about the
walking functions are stated as agreement between the source functions
and walks over parsed `Tok` values. -/

/-- The spec's operation token: kind plus kind-specific payload. -/
inductive Tok where
  | identity (n : Nat)
  | substitution (tb qb : Char)
  | insertion (bs : List Char)
  | deletion (bs : List Char)
deriving DecidableEq, Repr

/-- Parse one token string into the spec's data model. -/
def parseTok (t : List Char) : Option Tok :=
  if isIdentityTok t then some (.identity (digitsToNat (t.drop 1)))
  else if isSubTok t then some (.substitution (t.getD 1 ' ') (t.getD 2 ' '))
  else if isInsTok t then some (.insertion (t.drop 1))
  else if isDelTok t then some (.deletion (t.drop 1))
  else none

theorem parseTok_cases {t : List Char} {tok : Tok}
    (hp : parseTok t = some tok) :
    (∃ ds, t = ':' :: ds ∧ isIdentityTok t = true ∧
      tok = .identity (digitsToNat ds)) ∨
    (∃ c1 c2, t = ['*', c1, c2] ∧ isSubTok t = true ∧
      tok = .substitution c1 c2) ∨
    (∃ bs, t = '+' :: bs ∧ isInsTok t = true ∧ tok = .insertion bs) ∨
    (∃ bs, t = '-' :: bs ∧ isDelTok t = true ∧ tok = .deletion bs) := by
  unfold parseTok at hp
  split at hp
  · left
    obtain ⟨ds, rfl, -, -⟩ := isIdentityTok_shape (by assumption)
    simp only [Option.some.injEq] at hp
    exact ⟨ds, rfl, by assumption, by rw [← hp]; simp⟩
  · split at hp
    · right; left
      obtain ⟨c1, c2, rfl, -, -⟩ := isSubTok_shape (by assumption)
      simp only [Option.some.injEq] at hp
      exact ⟨c1, c2, rfl, by assumption, by rw [← hp]; simp⟩
    · split at hp
      · right; right; left
        obtain ⟨bs, rfl, -, -⟩ := isInsTok_shape (by assumption)
        simp only [Option.some.injEq] at hp
        exact ⟨bs, rfl, by assumption, by rw [← hp]; simp⟩
      · split at hp
        · right; right; right
          obtain ⟨bs, rfl, -, -⟩ := isDelTok_shape (by assumption)
          simp only [Option.some.injEq] at hp
          exact ⟨bs, rfl, by assumption, by rw [← hp]; simp⟩
        · exact absurd hp (by simp)

/-! ## `cs_to_sequence` (source) and the spec's reconstruction walk -/

/-- The token loop of `cs_to_sequence`: walks token strings with a
cursor `seq_loc` into `seq`, emitting characters exactly as the source
branches do (identity copies `seq[seq_loc : seq_loc + op_len]`,
substitution emits `cs_op[2]`, insertion emits `cs_op[1:]`, deletion
advances by `len(cs_op) - 1`). -/
def csToSequenceGo (seq : List Char) :
    List (List Char) → Nat → Except String (List Char)
  | [], _ => .ok []
  | cs_op :: rest, loc =>
    match csOpType cs_op with
    | some .identity =>
      match cs_op_len_target cs_op with
      | some op_len =>
        match csToSequenceGo seq rest (loc + op_len) with
        | .ok tl => .ok ((seq.drop loc).take op_len ++ tl)
        | .error e => .error e
      | none => .error "invalid cs_op"
    | some .substitution =>
      match csToSequenceGo seq rest (loc + 1) with
      | .ok tl => .ok (cs_op.getD 2 ' ' :: tl)
      | .error e => .error e
    | some .insertion =>
      match csToSequenceGo seq rest loc with
      | .ok tl => .ok (cs_op.drop 1 ++ tl)
      | .error e => .error e
    | some .deletion => csToSequenceGo seq rest (loc + (cs_op.length - 1))
    | none => .error "invalid cs_op"

/-- `cs_to_sequence(cs, seq)`: tokenize (raising on an invalid string),
walk the tokens, join and upper-case the emitted pieces. -/
def cs_to_sequence (cs seq : List Char) : Except String (List Char) :=
  match splitCs cs with
  | none => .error "invalid cs_string"
  | some cs_list =>
    match csToSequenceGo seq cs_list 0 with
    | .ok out => .ok (out.map Char.toUpper)
    | .error e => .error e

/-- Modelled from the spec (§4.5): walk structured tokens in order with
a cursor into the target sequence; identity copies `n` target bases and
advances, substitution emits the query base and advances by 1,
insertion emits its bases without advancing, deletion advances by the
deleted length emitting nothing. -/
def specReconstruct (seq : List Char) : List Tok → Nat → List Char
  | [], _ => []
  | .identity n :: ts, loc =>
    (seq.drop loc).take n ++ specReconstruct seq ts (loc + n)
  | .substitution _ qb :: ts, loc => qb :: specReconstruct seq ts (loc + 1)
  | .insertion bs :: ts, loc => bs ++ specReconstruct seq ts loc
  | .deletion bs :: ts, loc => specReconstruct seq ts (loc + bs.length)

theorem csToSequenceGo_spec (seq : List Char) :
    ∀ {ts : List (List Char)} {toks : List Tok} (loc : Nat),
    ts.mapM parseTok = some toks →
    csToSequenceGo seq ts loc = .ok (specReconstruct seq toks loc) := by
  intro ts
  induction ts with
  | nil =>
    intro toks loc h
    simp only [List.mapM_nil, pure, Option.some.injEq] at h
    subst h
    rfl
  | cons t ts' ih =>
    intro toks loc h
    rw [List.mapM_cons] at h
    match hp : parseTok t with
    | none => rw [hp] at h; exact absurd h (by simp)
    | some tok =>
      rw [hp] at h
      match hrec : ts'.mapM parseTok with
      | none => rw [hrec] at h; exact absurd h (by simp)
      | some toks' =>
        rw [hrec] at h
        simp only [Option.bind_some, Option.bind_eq_bind, pure,
          Option.some.injEq, Option.some_bind] at h
        subst h
        rcases parseTok_cases hp with
          ⟨ds, rfl, hI, rfl⟩ | ⟨c1, c2, rfl, hS, rfl⟩ |
          ⟨bs, rfl, hIns, rfl⟩ | ⟨bs, rfl, hD, rfl⟩
        · rw [csToSequenceGo, csOpType_of_identity hI,
            cs_op_len_target_identity hI]
          dsimp only
          rw [ih _ hrec]
          rfl
        · rw [csToSequenceGo, csOpType_of_sub hS]
          dsimp only
          rw [ih _ hrec]
          rfl
        · rw [csToSequenceGo, csOpType_of_ins hIns]
          dsimp only
          rw [ih _ hrec]
          rfl
        · rw [csToSequenceGo, csOpType_of_del hD]
          dsimp only
          rw [ih _ hrec]
          rfl

/-! ## Claim C7: sequence reconstruction -/

/-- C7: `cs_to_sequence` agrees with the spec's cursor walk over
structured tokens (upper-cased at the end), and on the documented
example input it returns exactly the documented output. -/
theorem c7_cs_to_sequence_spec :
    (∀ (cs seq : List Char) (ts : List (List Char)) (toks : List Tok),
      splitCs cs = some ts → ts.mapM parseTok = some toks →
      cs_to_sequence cs seq =
        .ok ((specReconstruct seq toks 0).map Char.toUpper)) ∧
    cs_to_sequence (":4*nt-tc:2+g:2".data) ("CGGANTCCAAT".data) =
      .ok ("CGGATCAGAT".data) := by
  constructor
  · intro cs seq ts toks hs hp
    unfold cs_to_sequence
    rw [hs]
    dsimp only
    rw [csToSequenceGo_spec seq 0 hp]
  · rfl

/-- Witness for C7 at the documented example. -/
theorem c7_cs_to_sequence_spec_witness :
    ∃ ts toks,
      splitCs (":4*nt-tc:2+g:2".data) = some ts ∧
      List.mapM parseTok ts = some toks ∧
      cs_to_sequence (":4*nt-tc:2+g:2".data) ("CGGANTCCAAT".data) =
        .ok ((specReconstruct ("CGGANTCCAAT".data) toks 0).map Char.toUpper) :=
  ⟨_, _, rfl, rfl, c7_cs_to_sequence_spec.1 _ _ _ _ rfl rfl⟩

/-! ## `cs_to_mutation_str` (source) and the spec's formatter walk -/

/-- Python `str` of an int (sign plus decimal digits). -/
def intToDigits (i : Int) : List Char :=
  if i < 0 then '-' :: natToDigits i.natAbs else natToDigits i.toNat

/-- The token loop of `cs_to_mutation_str`: walks token strings with the
1-indexed target cursor `seq_loc`, collecting the emitted mutation
strings.  Substitution emits `(cs_op[1] + str(seq_loc) + cs_op[2]).upper()`
unless `cs_op[1] == 'n'`; insertion emits `'ins' + str(seq_loc) +
cs_op[1:].upper()`; deletion emits `'del' + str(seq_loc) + 'to' +
str(seq_loc + len(cs_op) - 2)` and advances by `len(cs_op) - 1`. -/
def csToMutationStrGo : List (List Char) → Int → Except String (List (List Char))
  | [], _ => .ok []
  | cs_op :: rest, loc =>
    match csOpType cs_op with
    | some .identity =>
      match cs_op_len_target cs_op with
      | some n => csToMutationStrGo rest (loc + n)
      | none => .error "invalid cs_op"
    | some .substitution =>
      if cs_op.getD 1 ' ' ≠ 'n' then
        match csToMutationStrGo rest (loc + 1) with
        | .ok tl =>
          .ok ((([cs_op.getD 1 ' '] ++ intToDigits loc ++
            [cs_op.getD 2 ' ']).map Char.toUpper) :: tl)
        | .error e => .error e
      else csToMutationStrGo rest (loc + 1)
    | some .insertion =>
      match csToMutationStrGo rest loc with
      | .ok tl =>
        .ok (("ins".data ++ intToDigits loc ++
          (cs_op.drop 1).map Char.toUpper) :: tl)
      | .error e => .error e
    | some .deletion =>
      match csToMutationStrGo rest (loc + (cs_op.length - 1 : Nat)) with
      | .ok tl =>
        .ok (("del".data ++ intToDigits loc ++ "to".data ++
          intToDigits (loc + (cs_op.length : Int) - 2)) :: tl)
      | .error e => .error e
    | none => .error "invalid cs_op"

/-- `cs_to_mutation_str(cs, offset)`: tokenize, walk with the cursor
initialized to `1 + offset`, and space-join the emissions. -/
def cs_to_mutation_str (cs : List Char) (offset : Int) :
    Except String (List Char) :=
  match splitCs cs with
  | none => .error "invalid cs_string"
  | some cs_list =>
    match csToMutationStrGo cs_list (1 + offset) with
    | .ok muts => .ok (List.intercalate [' '] muts)
    | .error e => .error e

/-- Modelled from the spec (§4.6): the formatter walk over structured
tokens with a 1-indexed cursor; identity advances silently, a
substitution from the ambiguous base `n` is suppressed, insertion does
not advance, a deletion of length `L` emits an inclusive end position
`pos + L - 1` and advances by `L`. -/
def specMutationStrs : List Tok → Int → List (List Char)
  | [], _ => []
  | .identity n :: ts, pos => specMutationStrs ts (pos + n)
  | .substitution tb qb :: ts, pos =>
    if tb = 'n' then specMutationStrs ts (pos + 1)
    else ((tb :: (intToDigits pos ++ [qb])).map Char.toUpper) ::
      specMutationStrs ts (pos + 1)
  | .insertion bs :: ts, pos =>
    ("ins".data ++ intToDigits pos ++ bs.map Char.toUpper) ::
      specMutationStrs ts pos
  | .deletion bs :: ts, pos =>
    ("del".data ++ intToDigits pos ++ "to".data ++
      intToDigits (pos + (bs.length : Int) - 1)) ::
      specMutationStrs ts (pos + bs.length)

theorem csToMutationStrGo_spec :
    ∀ {ts : List (List Char)} {toks : List Tok} (loc : Int),
    ts.mapM parseTok = some toks →
    csToMutationStrGo ts loc = .ok (specMutationStrs toks loc) := by
  intro ts
  induction ts with
  | nil =>
    intro toks loc h
    simp only [List.mapM_nil, pure, Option.some.injEq] at h
    subst h
    rfl
  | cons t ts' ih =>
    intro toks loc h
    rw [List.mapM_cons] at h
    match hp : parseTok t with
    | none => rw [hp] at h; exact absurd h (by simp)
    | some tok =>
      rw [hp] at h
      match hrec : ts'.mapM parseTok with
      | none => rw [hrec] at h; exact absurd h (by simp)
      | some toks' =>
        rw [hrec] at h
        simp only [Option.bind_some, Option.bind_eq_bind, pure,
          Option.some.injEq, Option.some_bind] at h
        subst h
        rcases parseTok_cases hp with
          ⟨ds, rfl, hI, rfl⟩ | ⟨c1, c2, rfl, hS, rfl⟩ |
          ⟨bs, rfl, hIns, rfl⟩ | ⟨bs, rfl, hD, rfl⟩
        · rw [csToMutationStrGo, csOpType_of_identity hI,
            cs_op_len_target_identity hI]
          dsimp only
          rw [ih _ hrec]
          rfl
        · rw [csToMutationStrGo, csOpType_of_sub hS]
          dsimp only
          by_cases hn : c1 = 'n'
          · subst hn
            rw [if_neg (by simp), ih _ hrec, specMutationStrs, if_pos rfl]
          · rw [if_pos (by simpa using hn), ih _ hrec, specMutationStrs,
              if_neg hn]
            rfl
        · rw [csToMutationStrGo, csOpType_of_ins hIns]
          dsimp only
          rw [ih _ hrec]
          rfl
        · rw [csToMutationStrGo, csOpType_of_del hD]
          dsimp only
          have hlen : ((('-' :: bs).length : Int) - 2) = (bs.length : Int) - 1 := by
            simp only [List.length_cons]
            push_cast
            ring
          have hadv : (('-' :: bs).length - 1 : Nat) = bs.length := by simp
          rw [hadv, ih _ hrec]
          dsimp only
          rw [specMutationStrs]
          rw [show loc + (('-' :: bs).length : Int) - 2 =
            loc + (bs.length : Int) - 1 by omega]

/-! ## Claim C8: mutation description string -/

/-- C8: `cs_to_mutation_str` equals the space-joined emissions of the
spec's in-order token walk with a 1-indexed cursor initialized to
`1 + offset`: identity advances silently; a substitution whose target
base is `n` is suppressed while any other substitution emits the
upper-cased `<target><position><query>`; insertion emits
`ins<position><BASES>` without advancing; a deletion of length `L`
emits `del<position>to<position + L - 1>` and advances by `L`. -/
theorem c8_cs_to_mutation_str_spec (cs : List Char) (offset : Int)
    (ts : List (List Char)) (toks : List Tok)
    (hs : splitCs cs = some ts) (hp : ts.mapM parseTok = some toks) :
    cs_to_mutation_str cs offset =
      .ok (List.intercalate [' '] (specMutationStrs toks (1 + offset))) := by
  unfold cs_to_mutation_str
  rw [hs]
  dsimp only
  rw [csToMutationStrGo_spec (1 + offset) hp]

/-- Witness for C8 at the documented examples, including the doctest
output values. -/
theorem c8_cs_to_mutation_str_spec_witness :
    (∃ ts toks,
      splitCs (":4*nt-tc:2+ga:6".data) = some ts ∧
      List.mapM parseTok ts = some toks ∧
      cs_to_mutation_str (":4*nt-tc:2+ga:6".data) 0 =
        .ok (List.intercalate [' '] (specMutationStrs toks 1))) ∧
    cs_to_mutation_str (":4*nt-tc:2+ga:6".data) 0 =
      .ok ("del6to7 ins10GA".data) ∧
    cs_to_mutation_str (":4*at-tc:2+ga:6".data) 2 =
      .ok ("A7T del8to9 ins12GA".data) := by
  have h1 := c8_cs_to_mutation_str_spec (":4*nt-tc:2+ga:6".data) 0 _ _ rfl rfl
  have h2 := c8_cs_to_mutation_str_spec (":4*at-tc:2+ga:6".data) 2 _ _ rfl rfl
  exact ⟨⟨_, _, rfl, rfl, h1⟩, h1.trans (congrArg Except.ok (by decide)),
    h2.trans (congrArg Except.ok (by decide))⟩

/-! ## `cs_to_nt_mutation_count` and `cs_to_op_mutation_count` -/

/-- The token loop of `cs_to_nt_mutation_count`: a substitution counts
1 mutated base unless its target base is `n`; an insertion or deletion
counts `len(cs_op) - 1` bases; identity counts 0. -/
def csToNtMutCountGo : List (List Char) → Except String Nat
  | [] => .ok 0
  | cs_op :: rest =>
    match csOpType cs_op with
    | some .substitution =>
      match csToNtMutCountGo rest with
      | .ok tl => .ok ((if cs_op.getD 1 ' ' ≠ 'n' then 1 else 0) + tl)
      | .error e => .error e
    | some .insertion =>
      match csToNtMutCountGo rest with
      | .ok tl => .ok (cs_op.length - 1 + tl)
      | .error e => .error e
    | some .deletion =>
      match csToNtMutCountGo rest with
      | .ok tl => .ok (cs_op.length - 1 + tl)
      | .error e => .error e
    | some .identity => csToNtMutCountGo rest
    | none => .error "invalid cs_op"

/-- `cs_to_nt_mutation_count(cs)`. -/
def cs_to_nt_mutation_count (cs : List Char) : Except String Nat :=
  match splitCs cs with
  | none => .error "invalid cs_string"
  | some cs_list => csToNtMutCountGo cs_list

/-- The token loop of `cs_to_op_mutation_count`: each insertion,
deletion, or non-`n` substitution counts as exactly one operation. -/
def csToOpMutCountGo : List (List Char) → Except String Nat
  | [] => .ok 0
  | cs_op :: rest =>
    match csOpType cs_op with
    | some .substitution =>
      match csToOpMutCountGo rest with
      | .ok tl => .ok ((if cs_op.getD 1 ' ' ≠ 'n' then 1 else 0) + tl)
      | .error e => .error e
    | some .insertion =>
      match csToOpMutCountGo rest with
      | .ok tl => .ok (1 + tl)
      | .error e => .error e
    | some .deletion =>
      match csToOpMutCountGo rest with
      | .ok tl => .ok (1 + tl)
      | .error e => .error e
    | some .identity => csToOpMutCountGo rest
    | none => .error "invalid cs_op"

/-- `cs_to_op_mutation_count(cs)`. -/
def cs_to_op_mutation_count (cs : List Char) : Except String Nat :=
  match splitCs cs with
  | none => .error "invalid cs_string"
  | some cs_list => csToOpMutCountGo cs_list

/-- Modelled from the spec (§4.7): per-token nucleotide-mutation
weight. -/
def specNtWeight : Tok → Nat
  | .identity _ => 0
  | .substitution tb _ => if tb = 'n' then 0 else 1
  | .insertion bs => bs.length
  | .deletion bs => bs.length

/-- Modelled from the spec (§4.7): per-token operation-mutation
weight. -/
def specOpWeight : Tok → Nat
  | .identity _ => 0
  | .substitution tb _ => if tb = 'n' then 0 else 1
  | .insertion _ => 1
  | .deletion _ => 1

theorem csToNtMutCountGo_spec :
    ∀ {ts : List (List Char)} {toks : List Tok},
    ts.mapM parseTok = some toks →
    csToNtMutCountGo ts = .ok ((toks.map specNtWeight).sum) := by
  intro ts
  induction ts with
  | nil =>
    intro toks h
    simp only [List.mapM_nil, pure, Option.some.injEq] at h
    subst h
    rfl
  | cons t ts' ih =>
    intro toks h
    rw [List.mapM_cons] at h
    match hp : parseTok t with
    | none => rw [hp] at h; exact absurd h (by simp)
    | some tok =>
      rw [hp] at h
      match hrec : ts'.mapM parseTok with
      | none => rw [hrec] at h; exact absurd h (by simp)
      | some toks' =>
        rw [hrec] at h
        simp only [Option.bind_some, Option.bind_eq_bind, pure,
          Option.some.injEq, Option.some_bind] at h
        subst h
        rcases parseTok_cases hp with
          ⟨ds, rfl, hI, rfl⟩ | ⟨c1, c2, rfl, hS, rfl⟩ |
          ⟨bs, rfl, hIns, rfl⟩ | ⟨bs, rfl, hD, rfl⟩
        · rw [csToNtMutCountGo, csOpType_of_identity hI]
          dsimp only
          rw [ih hrec]
          simp [specNtWeight]
        · rw [csToNtMutCountGo, csOpType_of_sub hS]
          dsimp only
          rw [ih hrec]
          by_cases hn : c1 = 'n'
          · subst hn; simp [specNtWeight]
          · simp [specNtWeight, hn]
        · rw [csToNtMutCountGo, csOpType_of_ins hIns]
          dsimp only
          rw [ih hrec]
          simp [specNtWeight]
        · rw [csToNtMutCountGo, csOpType_of_del hD]
          dsimp only
          rw [ih hrec]
          simp [specNtWeight]

theorem csToOpMutCountGo_spec :
    ∀ {ts : List (List Char)} {toks : List Tok},
    ts.mapM parseTok = some toks →
    csToOpMutCountGo ts = .ok ((toks.map specOpWeight).sum) := by
  intro ts
  induction ts with
  | nil =>
    intro toks h
    simp only [List.mapM_nil, pure, Option.some.injEq] at h
    subst h
    rfl
  | cons t ts' ih =>
    intro toks h
    rw [List.mapM_cons] at h
    match hp : parseTok t with
    | none => rw [hp] at h; exact absurd h (by simp)
    | some tok =>
      rw [hp] at h
      match hrec : ts'.mapM parseTok with
      | none => rw [hrec] at h; exact absurd h (by simp)
      | some toks' =>
        rw [hrec] at h
        simp only [Option.bind_some, Option.bind_eq_bind, pure,
          Option.some.injEq, Option.some_bind] at h
        subst h
        rcases parseTok_cases hp with
          ⟨ds, rfl, hI, rfl⟩ | ⟨c1, c2, rfl, hS, rfl⟩ |
          ⟨bs, rfl, hIns, rfl⟩ | ⟨bs, rfl, hD, rfl⟩
        · rw [csToOpMutCountGo, csOpType_of_identity hI]
          dsimp only
          rw [ih hrec]
          simp [specOpWeight]
        · rw [csToOpMutCountGo, csOpType_of_sub hS]
          dsimp only
          rw [ih hrec]
          by_cases hn : c1 = 'n'
          · subst hn; simp [specOpWeight]
          · simp [specOpWeight, hn]
        · rw [csToOpMutCountGo, csOpType_of_ins hIns]
          dsimp only
          rw [ih hrec]
          simp [specOpWeight]
        · rw [csToOpMutCountGo, csOpType_of_del hD]
          dsimp only
          rw [ih hrec]
          simp [specOpWeight]

/-! ## Claim C9: mutation counters -/

/-- C9: `cs_to_nt_mutation_count` sums per-token nucleotide weights
(substitution 1 unless from `n`, indels their base-string length,
identity 0) and `cs_to_op_mutation_count` counts each indel or non-`n`
substitution as exactly one operation. -/
theorem c9_mutation_counts_spec (cs : List Char)
    (ts : List (List Char)) (toks : List Tok)
    (hs : splitCs cs = some ts) (hp : ts.mapM parseTok = some toks) :
    cs_to_nt_mutation_count cs = .ok ((toks.map specNtWeight).sum) ∧
    cs_to_op_mutation_count cs = .ok ((toks.map specOpWeight).sum) := by
  constructor
  · unfold cs_to_nt_mutation_count
    rw [hs]
    exact csToNtMutCountGo_spec hp
  · unfold cs_to_op_mutation_count
    rw [hs]
    exact csToOpMutCountGo_spec hp

/-- Witness for C9 at the documented example, with the doctest
values. -/
theorem c9_mutation_counts_spec_witness :
    (∃ ts toks,
      splitCs (":4*nt-tc:2+g".data) = some ts ∧
      List.mapM parseTok ts = some toks ∧
      cs_to_nt_mutation_count (":4*nt-tc:2+g".data) =
        .ok ((toks.map specNtWeight).sum) ∧
      cs_to_op_mutation_count (":4*nt-tc:2+g".data) =
        .ok ((toks.map specOpWeight).sum)) ∧
    cs_to_nt_mutation_count (":4*nt-tc:2+g".data) = .ok 3 ∧
    cs_to_op_mutation_count (":4*nt-tc:2+g".data) = .ok 2 := by
  have h := c9_mutation_counts_spec (":4*nt-tc:2+g".data) _ _ rfl rfl
  exact ⟨⟨_, _, rfl, rfl, h.1, h.2⟩,
    h.1.trans (congrArg Except.ok (by decide)),
    h.2.trans (congrArg Except.ok (by decide))⟩

/-! ## The Alignment record

`Alignment.__init__` consumes a `pysam.AlignedSegment`; the fields the
constructor reads are modelled as a plain structure.  The derived
coordinate index uses `numpy.cumsum` (modelled by `cumsumFrom`) and
`numpy.append(numpy.array(clip5), ends[:-1])` (modelled by
`clip5 :: ends.dropLast`, which for an empty `ends` also reproduces
numpy's length-1 result).  The constructor's `assert` statements are
modelled as explicit checks in source order. -/

/-- The fields of the `pysam.AlignedSegment` that `Alignment.__init__`
reads. -/
structure SamRecord where
  query_name : List Char
  reference_name : List Char
  query_length : Nat
  query_alignment_start : Nat
  query_alignment_end : Nat
  reference_start : Nat
  reference_end : Nat
  is_reverse : Bool
  is_unmapped : Bool
  cs : List Char
deriving DecidableEq, Repr

/-- `start + numpy.cumsum(lengths)` elementwise. -/
def cumsumFrom (a : Nat) : List Nat → List Nat
  | [] => []
  | x :: xs => (a + x) :: cumsumFrom (a + x) xs

/-- The `Alignment` object state after `__init__`. -/
structure Alignment where
  query_name : List Char
  target_name : List Char
  cs : List Char
  query_clip5 : Nat
  query_clip3 : Nat
  target_clip5 : Nat
  target_lastpos : Nat
  orientation : Char
  cs_ops : List (List Char)
  cs_ops_lengths_target : List Nat
  cs_ops_ends : List Nat
  cs_ops_starts : List Nat
  nops : Nat
deriving DecidableEq, Repr

/-- `Alignment.__init__(sam_alignment)`. -/
def mkAlignment (sa : SamRecord) : Except String Alignment :=
  if sa.is_unmapped then .error "sam_alignment is unmapped"
  else
    match splitCs sa.cs with
    | none => .error "invalid cs_string"
    | some ops =>
      match ops.mapM cs_op_len_target with
      | none => .error "invalid cs_op"
      | some lens =>
        -- sites are 0-indexed and exclusive
        if ops.length = lens.length then
          if ops.length = (cumsumFrom sa.reference_start lens).length then
            if ops.length =
                (sa.reference_start ::
                  (cumsumFrom sa.reference_start lens).dropLast).length then
              if List.zipWith (fun e s => e - s)
                  (cumsumFrom sa.reference_start lens)
                  (sa.reference_start ::
                    (cumsumFrom sa.reference_start lens).dropLast) = lens then
                .ok { query_name := sa.query_name
                      target_name := sa.reference_name
                      cs := sa.cs
                      query_clip5 := sa.query_alignment_start
                      query_clip3 := sa.query_length - sa.query_alignment_end
                      target_clip5 := sa.reference_start
                      target_lastpos := sa.reference_end
                      orientation := if sa.is_reverse then '-' else '+'
                      cs_ops := ops
                      cs_ops_lengths_target := lens
                      cs_ops_ends := cumsumFrom sa.reference_start lens
                      cs_ops_starts := sa.reference_start ::
                        (cumsumFrom sa.reference_start lens).dropLast
                      nops := ops.length }
              else .error "assert ends minus starts equals lengths"
            else .error "assert nops equals len starts"
          else .error "assert nops equals len ends"
        else .error "assert nops equals len lengths"

/-- Everything the proofs need to know about a successfully constructed
`Alignment`. -/
structure AlignmentInv (al : Alignment) : Prop where
  split_eq : splitCs al.cs = some al.cs_ops
  ops_tok : ∀ t ∈ al.cs_ops, isTok t = true
  lens_eq : al.cs_ops.mapM cs_op_len_target = some al.cs_ops_lengths_target
  ends_eq : al.cs_ops_ends = cumsumFrom al.target_clip5 al.cs_ops_lengths_target
  starts_eq : al.cs_ops_starts = al.target_clip5 :: al.cs_ops_ends.dropLast
  nops_eq : al.nops = al.cs_ops.length
  nops_lens : al.nops = al.cs_ops_lengths_target.length

theorem mkAlignment_inv {sa : SamRecord} {al : Alignment}
    (h : mkAlignment sa = .ok al) : AlignmentInv al := by
  unfold mkAlignment at h
  split at h
  · exact absurd h (by simp)
  · match hs : splitCs sa.cs with
    | none => rw [hs] at h; exact absurd h (by simp)
    | some ops =>
      rw [hs] at h
      dsimp only at h
      match hl : ops.mapM cs_op_len_target with
      | none => rw [hl] at h; exact absurd h (by simp)
      | some lens =>
        rw [hl] at h
        dsimp only at h
        split at h
        case _ =>
          split at h
          case _ =>
            split at h
            case _ =>
              split at h
              case _ =>
                simp only [Except.ok.injEq] at h
                subst h
                exact ⟨hs, splitCs_isTok hs, hl, rfl, rfl, rfl,
                  by simp_all⟩
              case _ => exact absurd h (by simp)
            case _ => exact absurd h (by simp)
          case _ => exact absurd h (by simp)
        case _ => exact absurd h (by simp)

/-! ## Coordinate-index lemmas -/

theorem cumsumFrom_length (a : Nat) (l : List Nat) :
    (cumsumFrom a l).length = l.length := by
  induction l generalizing a with
  | nil => rfl
  | cons x xs ih => simp [cumsumFrom, ih]

theorem sum_take_mono (l : List Nat) {i j : Nat} (h : i ≤ j) :
    (l.take i).sum ≤ (l.take j).sum := by
  have : l.take j = l.take i ++ (l.drop i).take (j - i) := by
    rw [← List.take_add]
    congr 1
    omega
  rw [this, List.sum_append]
  omega

theorem cumsumFrom_getD (a : Nat) (l : List Nat) (i : Nat)
    (h : i < l.length) :
    (cumsumFrom a l).getD i 0 = a + (l.take (i + 1)).sum := by
  induction l generalizing a i with
  | nil => simp at h
  | cons x xs ih =>
    cases i with
    | zero => simp [cumsumFrom]
    | succ i =>
      simp only [cumsumFrom, List.getD_cons_succ, List.take_succ_cons,
        List.sum_cons]
      rw [ih (a + x) i (by simpa using h)]
      omega

theorem cumsumFrom_mono (a : Nat) (l : List Nat) {i j : Nat}
    (hij : i ≤ j) (hj : j < l.length) :
    (cumsumFrom a l).getD i 0 ≤ (cumsumFrom a l).getD j 0 := by
  rw [cumsumFrom_getD a l i (Nat.lt_of_le_of_lt hij hj),
    cumsumFrom_getD a l j hj]
  have := sum_take_mono l (show i + 1 ≤ j + 1 by omega)
  omega

theorem cumsumFrom_last (a : Nat) (l : List Nat) (h : l ≠ []) :
    (cumsumFrom a l).getD (l.length - 1) 0 = a + l.sum := by
  have hlen : l.length - 1 < l.length := by
    have := List.length_pos.mpr h
    omega
  rw [cumsumFrom_getD a l _ hlen]
  congr 1
  rw [show l.length - 1 + 1 = l.length by
    have := List.length_pos.mpr h; omega]
  simp

theorem getD_dropLast {l : List Nat} {k : Nat} (h : k < l.length - 1) :
    l.dropLast.getD k 0 = l.getD k 0 := by
  have hk : k < l.dropLast.length := by
    simp only [List.length_dropLast]
    omega
  have hk' : k < l.length := by omega
  rw [List.getD_eq_getElem?_getD, List.getD_eq_getElem?_getD,
    List.getElem?_eq_getElem hk, List.getElem?_eq_getElem hk',
    List.getElem_dropLast]

theorem mapM_len_getD :
    ∀ {ops : List (List Char)} {lens : List Nat},
    ops.mapM cs_op_len_target = some lens →
    ∀ i, i < ops.length →
      cs_op_len_target (ops.getD i []) = some (lens.getD i 0) := by
  intro ops
  induction ops with
  | nil => intro lens h i hi; simp at hi
  | cons t ts ih =>
    intro lens h i hi
    rw [List.mapM_cons] at h
    match hp : cs_op_len_target t with
    | none => rw [hp] at h; exact absurd h (by simp)
    | some n =>
      rw [hp] at h
      match hrec : ts.mapM cs_op_len_target with
      | none => rw [hrec] at h; exact absurd h (by simp)
      | some lens' =>
        rw [hrec] at h
        simp only [Option.bind_some, Option.bind_eq_bind, pure,
          Option.some.injEq, Option.some_bind] at h
        subst h
        cases i with
        | zero => simpa using hp
        | succ i =>
          simp only [List.getD_cons_succ]
          exact ih hrec i (by simpa using hi)

theorem mapM_length {ops : List (List Char)} {lens : List Nat}
    (h : ops.mapM cs_op_len_target = some lens) :
    lens.length = ops.length := by
  induction ops generalizing lens with
  | nil =>
    simp only [List.mapM_nil, pure, Option.some.injEq] at h
    subst h; rfl
  | cons t ts ih =>
    rw [List.mapM_cons] at h
    match hp : cs_op_len_target t with
    | none => rw [hp] at h; exact absurd h (by simp)
    | some n =>
      rw [hp] at h
      match hrec : ts.mapM cs_op_len_target with
      | none => rw [hrec] at h; exact absurd h (by simp)
      | some lens' =>
        rw [hrec] at h
        simp only [Option.bind_some, Option.bind_eq_bind, pure,
          Option.some.injEq, Option.some_bind] at h
        subst h
        simp [ih hrec]

theorem take_succ_sum_getD (l : List Nat) {i : Nat} (h : i < l.length) :
    (l.take (i + 1)).sum = (l.take i).sum + l.getD i 0 := by
  rw [List.sum_take_succ l i h, List.getD_eq_getElem?_getD,
    List.getElem?_eq_getElem h]
  rfl

namespace AlignmentInv

variable {al : Alignment}

theorem nops_ends (inv : AlignmentInv al) : al.nops = al.cs_ops_ends.length := by
  rw [inv.ends_eq, cumsumFrom_length, ← inv.nops_lens]

theorem nops_starts_of_pos (inv : AlignmentInv al) (hn : 1 ≤ al.nops) :
    al.nops = al.cs_ops_starts.length := by
  rw [inv.starts_eq]
  simp only [List.length_cons, List.length_dropLast]
  rw [← inv.nops_ends]
  omega

theorem starts_zero (inv : AlignmentInv al) : al.cs_ops_starts.getD 0 0 = al.target_clip5 := by
  rw [inv.starts_eq]
  rfl

theorem starts_succ (inv : AlignmentInv al) {i : Nat} (h : i + 1 < al.nops) :
    al.cs_ops_starts.getD (i + 1) 0 = al.cs_ops_ends.getD i 0 := by
  rw [inv.starts_eq, List.getD_cons_succ]
  exact getD_dropLast (by rw [← inv.nops_ends]; omega)

theorem ends_getD (inv : AlignmentInv al) {i : Nat} (h : i < al.nops) :
    al.cs_ops_ends.getD i 0 =
      al.target_clip5 + (al.cs_ops_lengths_target.take (i + 1)).sum := by
  rw [inv.ends_eq]
  exact cumsumFrom_getD _ _ i (by rw [← inv.nops_lens]; omega)

theorem starts_getD (inv : AlignmentInv al) {i : Nat} (h : i < al.nops) :
    al.cs_ops_starts.getD i 0 =
      al.target_clip5 + (al.cs_ops_lengths_target.take i).sum := by
  cases i with
  | zero => simpa using inv.starts_zero
  | succ i =>
    rw [inv.starts_succ h, inv.ends_getD (by omega)]

theorem ends_starts_len (inv : AlignmentInv al) {i : Nat} (h : i < al.nops) :
    al.cs_ops_ends.getD i 0 =
      al.cs_ops_starts.getD i 0 + al.cs_ops_lengths_target.getD i 0 := by
  rw [inv.ends_getD h, inv.starts_getD h,
    take_succ_sum_getD _ (by rw [← inv.nops_lens]; omega)]
  omega

theorem starts_le_ends (inv : AlignmentInv al) {i : Nat} (h : i < al.nops) :
    al.cs_ops_starts.getD i 0 ≤ al.cs_ops_ends.getD i 0 := by
  rw [inv.ends_starts_len h]
  omega

theorem ends_mono (inv : AlignmentInv al) {i j : Nat} (hij : i ≤ j) (hj : j < al.nops) :
    al.cs_ops_ends.getD i 0 ≤ al.cs_ops_ends.getD j 0 := by
  rw [inv.ends_eq]
  exact cumsumFrom_mono _ _ hij (by rw [← inv.nops_lens]; omega)

theorem starts_mono (inv : AlignmentInv al) {i j : Nat} (hij : i ≤ j) (hj : j < al.nops) :
    al.cs_ops_starts.getD i 0 ≤ al.cs_ops_starts.getD j 0 := by
  rw [inv.starts_getD (Nat.lt_of_le_of_lt hij hj), inv.starts_getD hj]
  have := sum_take_mono al.cs_ops_lengths_target hij
  omega

theorem clip5_le_starts (inv : AlignmentInv al) {i : Nat} (h : i < al.nops) :
    al.target_clip5 ≤ al.cs_ops_starts.getD i 0 := by
  rw [inv.starts_getD h]
  omega

theorem ends_last (inv : AlignmentInv al) (hn : 1 ≤ al.nops) :
    al.cs_ops_ends.getD (al.nops - 1) 0 =
      al.target_clip5 + al.cs_ops_lengths_target.sum := by
  rw [inv.ends_eq]
  have hne : al.cs_ops_lengths_target ≠ [] := by
    intro hnil
    rw [inv.nops_lens, hnil] at hn
    simp at hn
  rw [inv.nops_lens]
  exact cumsumFrom_last _ _ hne

theorem ends_le_last (inv : AlignmentInv al) {i : Nat} (hn : i < al.nops) :
    al.cs_ops_ends.getD i 0 ≤ al.cs_ops_ends.getD (al.nops - 1) 0 :=
  inv.ends_mono (by omega) (by omega)

theorem starts_zero_le_starts (inv : AlignmentInv al) {i : Nat} (h : i < al.nops) :
    al.cs_ops_starts.getD 0 0 ≤ al.cs_ops_starts.getD i 0 := by
  cases Nat.eq_zero_or_pos i with
  | inl h0 => subst h0; exact Nat.le_refl _
  | inr hp => exact inv.starts_mono (by omega) h

end AlignmentInv

/-! ## Claim C3: the derived coordinate index -/

/-- C3 counterexample: the constructor never checks the cs-derived
extent against `reference_end`; a mapped record whose `reference_end`
is inconsistent with its cs tag still constructs successfully, with
`ends[n-1] ≠ target_lastpos`. -/
def c3BadRecord : SamRecord :=
  { query_name := "q".data
    reference_name := "r".data
    query_length := 5
    query_alignment_start := 0
    query_alignment_end := 5
    reference_start := 0
    reference_end := 99
    is_reverse := false
    is_unmapped := false
    cs := ":5".data }

/-- C3 counterexample: a successfully constructed record (cs `:5`,
`reference_start` 0, `reference_end` 99) whose last token end (5) is not
`target_lastpos` (99). -/
theorem c3_counterexample :
    ∃ al, mkAlignment c3BadRecord = .ok al ∧ 1 ≤ al.nops ∧
      al.cs_ops_ends.getD (al.nops - 1) 0 ≠ al.target_lastpos :=
  ⟨_, rfl, by decide, by decide⟩

/-- C3 (amended): for every successfully constructed Alignment with
`n ≥ 1` tokens, `starts[0] == target_clip5`; `ends[i] == starts[i] +
target_length(token[i])` for every `i < n`; `starts[i+1] == ends[i]`
for adjacent pairs; and `ends[n-1] == target_clip5 + sum of the
per-token target lengths`.  The further equality `ends[n-1] ==
target_lastpos` holds iff the input record satisfies `reference_end ==
reference_start + sum of cs target lengths` (true of records produced
by the aligner, where both sides describe the aligned target span, but
not checked by the constructor). -/
theorem c3_coordinate_index (sa : SamRecord) (al : Alignment)
    (h : mkAlignment sa = .ok al) (hn : 1 ≤ al.nops) :
    al.cs_ops_starts.getD 0 0 = al.target_clip5 ∧
    (∀ i, i < al.nops →
      cs_op_len_target (al.cs_ops.getD i []) =
        some (al.cs_ops_lengths_target.getD i 0) ∧
      al.cs_ops_ends.getD i 0 =
        al.cs_ops_starts.getD i 0 + al.cs_ops_lengths_target.getD i 0) ∧
    (∀ i, i + 1 < al.nops →
      al.cs_ops_starts.getD (i + 1) 0 = al.cs_ops_ends.getD i 0) ∧
    al.cs_ops_ends.getD (al.nops - 1) 0 =
      al.target_clip5 + al.cs_ops_lengths_target.sum ∧
    (al.cs_ops_ends.getD (al.nops - 1) 0 = al.target_lastpos ↔
      sa.reference_end =
        sa.reference_start + al.cs_ops_lengths_target.sum) := by
  have inv := mkAlignment_inv h
  have hclip : al.target_clip5 = sa.reference_start := by
    unfold mkAlignment at h
    split at h
    · exact absurd h (by simp)
    · match hs : splitCs sa.cs with
      | none => rw [hs] at h; exact absurd h (by simp)
      | some ops =>
        rw [hs] at h
        dsimp only at h
        match hl : ops.mapM cs_op_len_target with
        | none => rw [hl] at h; exact absurd h (by simp)
        | some lens =>
          rw [hl] at h
          dsimp only at h
          split at h
          · split at h
            · split at h
              · split at h
                · simp only [Except.ok.injEq] at h
                  subst h; rfl
                · exact absurd h (by simp)
              · exact absurd h (by simp)
            · exact absurd h (by simp)
          · exact absurd h (by simp)
  have hlast : al.target_lastpos = sa.reference_end := by
    unfold mkAlignment at h
    split at h
    · exact absurd h (by simp)
    · match hs : splitCs sa.cs with
      | none => rw [hs] at h; exact absurd h (by simp)
      | some ops =>
        rw [hs] at h
        dsimp only at h
        match hl : ops.mapM cs_op_len_target with
        | none => rw [hl] at h; exact absurd h (by simp)
        | some lens =>
          rw [hl] at h
          dsimp only at h
          split at h
          · split at h
            · split at h
              · split at h
                · simp only [Except.ok.injEq] at h
                  subst h; rfl
                · exact absurd h (by simp)
              · exact absurd h (by simp)
            · exact absurd h (by simp)
          · exact absurd h (by simp)
  refine ⟨inv.starts_zero, ?_, ?_, inv.ends_last hn, ?_⟩
  · intro i hi
    exact ⟨mapM_len_getD inv.lens_eq i (by rw [← inv.nops_eq]; omega),
      inv.ends_starts_len hi⟩
  · intro i hi
    exact inv.starts_succ hi
  · rw [inv.ends_last hn, hlast, hclip]
    constructor
    · intro he; omega
    · intro he; omega

/-- Witness for C3 (amended) at a concrete consistent record. -/
def c3GoodRecord : SamRecord :=
  { query_name := "q".data
    reference_name := "r".data
    query_length := 7
    query_alignment_start := 0
    query_alignment_end := 7
    reference_start := 2
    reference_end := 9
    is_reverse := false
    is_unmapped := false
    cs := ":4-tc:1".data }

/-- Witness for C3 (amended). -/
theorem c3_coordinate_index_witness :
    ∃ al, mkAlignment c3GoodRecord = .ok al ∧ 1 ≤ al.nops ∧
      al.cs_ops_starts.getD 0 0 = al.target_clip5 ∧
      al.cs_ops_ends.getD (al.nops - 1) 0 = al.target_lastpos := by
  refine ⟨_, rfl, ?_, ?_, ?_⟩
  · decide
  · exact (c3_coordinate_index c3GoodRecord _ rfl (by decide)).1
  · exact ((c3_coordinate_index c3GoodRecord _ rfl (by decide)).2.2.2.2).mpr
      (by decide)

/-! ## `Alignment.extract_cs`

The feature extractor.  numpy primitives are modelled as follows:
`numpy.searchsorted(a, v, side='right')` on the sorted cumulative-sum
arrays used here returns the number of elements `≤ v`; scalar indexing
raises `IndexError` out of range; `numpy.amax`/`numpy.amin` raise on an
empty array.  The fragments of the assembled feature string are tagged
with the index of the source operation they come from; `extract_cs`
joins the fragment texts, which is exactly the string the source
builds. -/

/-- `numpy.searchsorted(a, v, side='right')` on a nondecreasing array:
the number of elements `≤ v`. -/
def searchsortedRight (a : List Nat) (v : Nat) : Nat :=
  a.countP (fun x => decide (x ≤ v))

/-- numpy scalar indexing `a[i]`, `IndexError` out of range. -/
def npGet (a : List Nat) (i : Nat) : Except String Nat :=
  match a.get? i with
  | some x => .ok x
  | none => .error "IndexError"

/-- numpy scalar indexing into the operation list. -/
def npGetT (a : List (List Char)) (i : Nat) : Except String (List Char) :=
  match a.get? i with
  | some x => .ok x
  | none => .error "IndexError"

/-- `numpy.amax`, raising on an empty array. -/
def npAmax : List Nat → Except String Nat
  | [] => .error "zero-size array to reduction operation"
  | x :: xs => .ok (xs.foldl Nat.max x)

/-- `numpy.amin`, raising on an empty array. -/
def npAmin : List Nat → Except String Nat
  | [] => .error "zero-size array to reduction operation"
  | x :: xs => .ok (xs.foldl Nat.min x)

/-- A Python `assert`. -/
def pyAssert (b : Bool) (msg : String) : Except String Unit :=
  if b then .ok () else .error msg

/-- Python negative-index slice `s[-k:]` (`s` itself when `k = 0`). -/
def pyTailSlice (s : List Char) (k : Nat) : List Char :=
  if k = 0 then s else s.drop (s.length - k)

/-- Python slice `s[i:j]` for `0 ≤ i`, `0 ≤ j`. -/
def pySlice (s : List Char) (i j : Nat) : List Char :=
  (s.drop i).take (j - i)

/-- `self._cs_ops[i:j]`, tagging every element with its index; indices
are in range on every reachable path (`j` was successfully indexed just
before the slice is built). -/
def taggedSlice (ops : List (List Char)) (i j : Nat) :
    List (Nat × List Char) :=
  (List.range' i (j - i)).map (fun k => (k, ops.getD k []))

/-- The `while` loop advancing `end_idx` (cs_tag.py lines 311-313); the
index increases while staying below `nops`, so fuel `nops` is
adequate. -/
def advanceEndIdx (ends : List Nat) (nops e : Nat) : Nat → Nat → Nat
  | i, 0 => i
  | i, fuel + 1 =>
    if ends.getD i 0 < e ∧ i + 1 < nops then
      advanceEndIdx ends nops e (i + 1) fuel
    else i

/-- The start-boundary section of `extract_cs` (lines 277-305): the
initial feature fragments and `clip5`, given `start_idx`. -/
def extractStart (al : Alignment) (start e si : Nat) :
    Except String (List (Nat × List Char) × Nat) := do
  let start_op_start ← npGet al.cs_ops_starts si
  let start_op_end ← npGet al.cs_ops_ends si
  let start_op ← npGetT al.cs_ops si
  let _ ← pyAssert (decide (si < al.nops)) "assert start_idx < nops"
  let _ ← pyAssert (decide (start < start_op_end))
    "assert start < start_op_end"
  if start < start_op_start then do
    -- feature starts before first cs op
    let _ ← pyAssert (decide (si = 0)) "5' clip not at 5' end."
    .ok ([(si, start_op)], start_op_start - start)
  else do
    -- feature starts at or within specific cs op
    let start_overlap := start_op_end - start
    match csOpType start_op with
    | none => .error "invalid cs_op"
    | some t =>
      if start_op_start = start ∧ start_op_end ≤ e then
        .ok ([(si, start_op)], 0)
      else
        match t with
        | .identity => .ok ([(si, ':' :: natToDigits start_overlap)], 0)
        | .deletion =>
          .ok ([(si, '-' :: pyTailSlice start_op start_overlap)], 0)
        | .insertion => .error "insertion should not be feature start"
        | .substitution => .error "unrecognized op type of substitution"

/-- The end-boundary section of `extract_cs` (lines 307-339): the final
fragment text and `clip3`, given `start_idx` and the advanced
`end_idx`. -/
def extractEnd (al : Alignment) (e si ei : Nat) :
    Except String (List Char × Nat) := do
  let end_op_start ← npGet al.cs_ops_starts ei
  let end_op_end ← npGet al.cs_ops_ends ei
  let end_op ← npGetT al.cs_ops ei
  let _ ← pyAssert (decide (si ≤ ei) && decide (ei ≤ al.nops))
    "assert start_idx <= end_idx <= nops"
  let _ ← pyAssert (decide (e ≤ end_op_end) || decide (ei = al.nops - 1))
    "assert end <= end_op_end or end_idx last"
  let _ ← pyAssert (decide (end_op_start ≤ e)) "assert end >= end_op_start"
  if end_op_end < e then do
    let _ ← pyAssert (decide (ei = al.nops - 1)) "clip3 not at end"
    .ok (end_op, e - end_op_end)
  else if e = end_op_end then
    -- feature ends at a specific cs op
    .ok (end_op, 0)
  else do
    -- feature ends within specific cs op
    let end_overlap := e - end_op_start
    let _ ← pyAssert (decide (0 < end_overlap)) "assert end_overlap > 0"
    match csOpType end_op with
    | none => .error "invalid cs_op"
    | some .identity => .ok (':' :: natToDigits end_overlap, 0)
    | some .deletion => .ok (end_op.take (end_overlap + 1), 0)
    | some .insertion => .error "should not get here as end == end_op_end"
    | some .substitution => .error "unrecognized op type of substitution"

/-- The single-token merge of `extract_cs` (lines 341-356), rebuilding
the lone fragment from the token kind to avoid double counting. -/
def extractMerge (al : Alignment) (start e si clip5 clip3 : Nat) :
    Except String (List (Nat × List Char)) := do
  -- start_op == end_op here (same index), so the assert comparing them
  -- cannot fail and the single fetch below covers both.
  let op ← npGetT al.cs_ops si
  match csOpType op with
  | none => .error "invalid cs_op"
  | some .identity =>
    .ok [(si, ':' :: natToDigits (e - start - clip5 - clip3))]
  | some .substitution => .ok [(si, op)]
  | some .deletion => do
    let sos ← npGet al.cs_ops_starts si
    let soe ← npGet al.cs_ops_ends si
    -- del_start = max(0, start - start_op_start),
    -- del_end = end_op_end - end_op_start - max(0, end_op_end - end)
    let del_start := start - sos
    let del_end := (soe - sos) - (soe - e)
    .ok [(si, '-' :: pySlice op (del_start + 1) (del_end + 1))]
  | some .insertion => .error "start_idx != end_idx for insertion"

/-- The final length-conservation assertion (lines 362-364) and the
successful return. -/
def extractFinalize (frags : List (Nat × List Char))
    (clip5 clip3 start e : Nat) :
    Except String (Option (List (Nat × List Char) × Nat × Nat)) :=
  match splitCs (frags.map Prod.snd).flatten with
  | none => .error "invalid cs_string"
  | some toks =>
    match toks.mapM cs_op_len_target with
    | none => .error "invalid cs_op"
    | some ls =>
      if ls.sum + clip5 + clip3 = e - start then
        .ok (some (frags, clip5, clip3))
      else .error "length conservation assert"

/-- `Alignment.extract_cs(start, end)` with index-tagged fragments.
Python also raises on `start < 0`; coordinates here are `Nat`, on which
that check is vacuous. -/
def extract_cs_frags (al : Alignment) (start e : Nat) :
    Except String (Option (List (Nat × List Char) × Nat × Nat)) := do
  if e ≤ start then .error "end not > start"
  else do
    let maxEnds ← npAmax al.cs_ops_ends
    if maxEnds ≤ start then
      -- feature starts at or after end of last cs op
      .ok none
    else do
      let minStarts ← npAmin al.cs_ops_starts
      if e ≤ minStarts then
        -- feature ends at or before beginning of first cs op
        .ok none
      else do
        let si := searchsortedRight al.cs_ops_ends start
        let (frags0, clip5) ← extractStart al start e si
        let ei0 := searchsortedRight al.cs_ops_ends e - 1
        let ei := advanceEndIdx al.cs_ops_ends al.nops e ei0 al.nops
        let (endFrag, clip3) ← extractEnd al e si ei
        let frags ←
          if si = ei then extractMerge al start e si clip5 clip3
          else .ok (frags0 ++ taggedSlice al.cs_ops (si + 1) ei ++
            [(ei, endFrag)])
        extractFinalize frags clip5 clip3 start e

/-- `Alignment.extract_cs(start, end)`: the feature cs string together
with the two clip lengths, `none` when the feature does not overlap the
alignment. -/
def extract_cs (al : Alignment) (start e : Nat) :
    Except String (Option (List Char × Nat × Nat)) :=
  match extract_cs_frags al start e with
  | .ok (some (frags, c5, c3)) =>
    .ok (some ((frags.map Prod.snd).flatten, c5, c3))
  | .ok none => .ok none
  | .error msg => .error msg

/-! ## Lemmas about the numpy primitives on sorted arrays -/

/-- Elementwise (getD-indexed) monotonicity. -/
def MonoArr (a : List Nat) : Prop :=
  ∀ i j, i ≤ j → j < a.length → a.getD i 0 ≤ a.getD j 0

theorem MonoArr.tail {x : Nat} {xs : List Nat} (h : MonoArr (x :: xs)) :
    MonoArr xs := by
  intro i j hij hj
  have := h (i + 1) (j + 1) (by omega) (by simpa using Nat.succ_lt_succ hj)
  simpa using this

theorem MonoArr.head_le {x : Nat} {xs : List Nat} (h : MonoArr (x :: xs))
    {j : Nat} (hj : j < xs.length) : x ≤ xs.getD j 0 := by
  have := h 0 (j + 1) (by omega) (by simpa using Nat.succ_lt_succ hj)
  simpa using this

theorem getD_mem {a : List Nat} {k : Nat} (h : k < a.length) :
    a.getD k 0 ∈ a := by
  rw [List.getD_eq_getElem?_getD, List.getElem?_eq_getElem h]
  exact List.getElem_mem h

theorem mem_getD {a : List Nat} {y : Nat} (h : y ∈ a) :
    ∃ k, k < a.length ∧ a.getD k 0 = y := by
  obtain ⟨k, hk, hy⟩ := List.mem_iff_getElem.mp h
  exact ⟨k, hk, by rw [List.getD_eq_getElem?_getD, List.getElem?_eq_getElem hk, hy]; rfl⟩

theorem searchsortedRight_le_length (a : List Nat) (v : Nat) :
    searchsortedRight a v ≤ a.length :=
  List.countP_le_length _

theorem searchsortedRight_below {a : List Nat} (hm : MonoArr a) {v i : Nat}
    (hi : i < searchsortedRight a v) : a.getD i 0 ≤ v := by
  induction a generalizing i with
  | nil => simp [searchsortedRight] at hi
  | cons x xs ih =>
    unfold searchsortedRight at hi
    rw [List.countP_cons] at hi
    by_cases hx : x ≤ v
    · cases i with
      | zero => simpa using hx
      | succ i =>
        simp only [List.getD_cons_succ]
        exact ih hm.tail (by unfold searchsortedRight; simp [hx] at hi; omega)
    · have hzero : xs.countP (fun y => decide (y ≤ v)) = 0 := by
        rw [List.countP_eq_zero]
        intro y hy
        obtain ⟨k, hk, rfl⟩ := mem_getD hy
        have := hm.head_le hk
        simp only [decide_eq_true_eq]
        omega
      rw [hzero] at hi
      simp [hx] at hi
  
theorem searchsortedRight_above {a : List Nat} (hm : MonoArr a) {v i : Nat}
    (hi : searchsortedRight a v ≤ i) (hlen : i < a.length) :
    v < a.getD i 0 := by
  induction a generalizing i with
  | nil => simp at hlen
  | cons x xs ih =>
    unfold searchsortedRight at hi
    rw [List.countP_cons] at hi
    by_cases hx : x ≤ v
    · rw [if_pos (by simpa using hx)] at hi
      cases i with
      | zero => omega
      | succ i =>
        simp only [List.getD_cons_succ]
        exact ih hm.tail
          (by unfold searchsortedRight; omega)
          (by simpa using hlen)
    · cases i with
      | zero => simpa using Nat.lt_of_not_le hx
      | succ i =>
        simp only [List.getD_cons_succ]
        have := hm.head_le (by simpa using hlen : i < xs.length)
        omega

theorem searchsortedRight_mono (a : List Nat) {v w : Nat} (h : v ≤ w) :
    searchsortedRight a v ≤ searchsortedRight a w := by
  unfold searchsortedRight
  apply List.countP_mono_left
  intro x hx
  simp only [decide_eq_true_eq]
  omega

theorem le_foldl_max (xs : List Nat) (x : Nat) : x ≤ xs.foldl Nat.max x := by
  induction xs generalizing x with
  | nil => exact Nat.le_refl x
  | cons y ys ih =>
    calc x ≤ Nat.max x y := Nat.le_max_left x y
    _ ≤ ys.foldl Nat.max (Nat.max x y) := ih _

theorem mem_le_foldl_max {xs : List Nat} {y : Nat} (h : y ∈ xs) (x : Nat) :
    y ≤ xs.foldl Nat.max x := by
  induction xs generalizing x with
  | nil => simp at h
  | cons z zs ih =>
    rcases List.mem_cons.mp h with rfl | h
    · calc y ≤ Nat.max x y := Nat.le_max_right x y
      _ ≤ zs.foldl Nat.max (Nat.max x y) := le_foldl_max zs _
    · exact ih h _

theorem foldl_max_mem (xs : List Nat) (x : Nat) :
    xs.foldl Nat.max x = x ∨ xs.foldl Nat.max x ∈ xs := by
  induction xs generalizing x with
  | nil => exact Or.inl rfl
  | cons y ys ih =>
    rcases ih (Nat.max x y) with h | h
    · rcases Nat.le_total x y with hxy | hxy
      · right
        rw [List.foldl_cons, h, show Nat.max x y = y from Nat.max_eq_right hxy]
        exact List.mem_cons_self y ys
      · left
        rw [List.foldl_cons, h, show Nat.max x y = x from Nat.max_eq_left hxy]
    · exact Or.inr (List.mem_cons_of_mem y h)

theorem foldl_min_le (xs : List Nat) (x : Nat) : xs.foldl Nat.min x ≤ x := by
  induction xs generalizing x with
  | nil => exact Nat.le_refl x
  | cons y ys ih =>
    calc ys.foldl Nat.min (Nat.min x y) ≤ Nat.min x y := ih _
    _ ≤ x := Nat.min_le_left x y

theorem foldl_min_le_mem {xs : List Nat} {y : Nat} (h : y ∈ xs) (x : Nat) :
    xs.foldl Nat.min x ≤ y := by
  induction xs generalizing x with
  | nil => simp at h
  | cons z zs ih =>
    rcases List.mem_cons.mp h with rfl | h
    · calc zs.foldl Nat.min (Nat.min x y) ≤ Nat.min x y := foldl_min_le zs _
      _ ≤ y := Nat.min_le_right x y
    · exact ih h _

theorem foldl_min_mem (xs : List Nat) (x : Nat) :
    xs.foldl Nat.min x = x ∨ xs.foldl Nat.min x ∈ xs := by
  induction xs generalizing x with
  | nil => exact Or.inl rfl
  | cons y ys ih =>
    rcases ih (Nat.min x y) with h | h
    · rcases Nat.le_total x y with hxy | hxy
      · left
        rw [List.foldl_cons, h, show Nat.min x y = x from Nat.min_eq_left hxy]
      · right
        rw [List.foldl_cons, h, show Nat.min x y = y from Nat.min_eq_right hxy]
        exact List.mem_cons_self y ys
    · exact Or.inr (List.mem_cons_of_mem y h)

theorem npAmax_sorted {a : List Nat} (hm : MonoArr a) (hne : a ≠ []) :
    npAmax a = .ok (a.getD (a.length - 1) 0) := by
  match a, hne with
  | x :: xs, _ =>
    have hlast : (x :: xs).getD ((x :: xs).length - 1) 0 ∈ x :: xs :=
      getD_mem (by simp)
    have hle : (x :: xs).getD ((x :: xs).length - 1) 0 ≤ xs.foldl Nat.max x := by
      rcases List.mem_cons.mp hlast with hx | hx
      · rw [hx]; exact le_foldl_max xs x
      · exact mem_le_foldl_max hx x
    have hge : xs.foldl Nat.max x ≤ (x :: xs).getD ((x :: xs).length - 1) 0 := by
      rcases foldl_max_mem xs x with h | h
      · rw [h]
        have := hm 0 ((x :: xs).length - 1) (by omega) (by simp)
        simpa using this
      · obtain ⟨k, hk, hkv⟩ := mem_getD (List.mem_cons_of_mem x h)
        rw [← hkv]
        exact hm k ((x :: xs).length - 1) (by simp at hk ⊢; omega) (by simp)
    exact congrArg Except.ok (Nat.le_antisymm hge hle)

theorem npAmin_sorted {a : List Nat} (hm : MonoArr a) (hne : a ≠ []) :
    npAmin a = .ok (a.getD 0 0) := by
  match a, hne with
  | x :: xs, _ =>
    have hle : xs.foldl Nat.min x ≤ x := foldl_min_le xs x
    have hge : x ≤ xs.foldl Nat.min x := by
      rcases foldl_min_mem xs x with h | h
      · rw [h]
      · obtain ⟨k, hk, hkv⟩ := mem_getD (List.mem_cons_of_mem x h)
        rw [← hkv]
        have := hm 0 k (by omega) (by simp at hk ⊢; omega)
        simpa using this
    show Except.ok (xs.foldl Nat.min x) = Except.ok ((x :: xs).getD 0 0)
    simp only [List.getD_cons_zero]
    exact congrArg Except.ok (Nat.le_antisymm hle hge)

/-! ## `advanceEndIdx` lemmas -/

theorem adv_ge (ends : List Nat) (n e : Nat) :
    ∀ fuel i, i ≤ advanceEndIdx ends n e i fuel := by
  intro fuel
  induction fuel with
  | zero => intro i; exact Nat.le_refl i
  | succ fuel ih =>
    intro i
    unfold advanceEndIdx
    split
    · exact Nat.le_trans (Nat.le_succ i) (ih (i + 1))
    · exact Nat.le_refl i

theorem adv_lt (ends : List Nat) (n e : Nat) :
    ∀ fuel i, i < n → advanceEndIdx ends n e i fuel < n := by
  intro fuel
  induction fuel with
  | zero => intro i hi; exact hi
  | succ fuel ih =>
    intro i hi
    unfold advanceEndIdx
    split
    · exact ih (i + 1) (by omega)
    · exact hi

theorem adv_exit (ends : List Nat) (n e : Nat) :
    ∀ fuel i, i < n → n ≤ fuel + i + 1 →
    e ≤ ends.getD (advanceEndIdx ends n e i fuel) 0 ∨
      advanceEndIdx ends n e i fuel = n - 1 := by
  intro fuel
  induction fuel with
  | zero =>
    intro i hi hfuel
    right
    unfold advanceEndIdx
    omega
  | succ fuel ih =>
    intro i hi hfuel
    unfold advanceEndIdx
    split
    · exact ih (i + 1) (by omega) (by omega)
    · case _ hcond =>
      rcases Decidable.not_and_iff_or_not.mp hcond with h | h
      · exact Or.inl (by omega)
      · right; omega

theorem adv_move (ends : List Nat) (n e : Nat) :
    ∀ fuel i, advanceEndIdx ends n e i fuel = i ∨
      (i < advanceEndIdx ends n e i fuel ∧
        ends.getD (advanceEndIdx ends n e i fuel - 1) 0 < e) := by
  intro fuel
  induction fuel with
  | zero => intro i; exact Or.inl rfl
  | succ fuel ih =>
    intro i
    unfold advanceEndIdx
    split
    · case _ hcond =>
      rcases ih (i + 1) with h | ⟨h1, h2⟩
      · right
        rw [h]
        exact ⟨by omega, by simpa using hcond.1⟩
      · exact Or.inr ⟨by omega, h2⟩
    · exact Or.inl rfl

theorem adv_stay {ends : List Nat} {n e i : Nat} (fuel : Nat)
    (h : e ≤ ends.getD i 0) : advanceEndIdx ends n e i fuel = i := by
  cases fuel with
  | zero => rfl
  | succ fuel =>
    unfold advanceEndIdx
    rw [if_neg]
    intro ⟨h1, _⟩
    omega

theorem adv_step {ends : List Nat} {n e i : Nat} (fuel : Nat)
    (h1 : ends.getD i 0 < e) (h2 : i + 1 < n) :
    advanceEndIdx ends n e i (fuel + 1) = advanceEndIdx ends n e (i + 1) fuel := by
  rw [show advanceEndIdx ends n e i (fuel + 1) =
    if ends.getD i 0 < e ∧ i + 1 < n then advanceEndIdx ends n e (i + 1) fuel
    else i from rfl, if_pos ⟨h1, h2⟩]

/-! ## Small rewriting helpers for the `Except` control flow -/

theorem bind_ok {α β : Type} {x : Except String α} {f : α → Except String β}
    {a : α} (h : x = .ok a) : (x >>= f) = f a := by
  rw [h]; rfl

theorem pyAssert_ok {b : Bool} {msg : String} (h : b = true) :
    pyAssert b msg = .ok () := by
  rw [h]; rfl

theorem ok_bind {α β : Type} (a : α) (f : α → Except String β) :
    ((Except.ok a : Except String α) >>= f) = f a := rfl

theorem npGet_ok {a : List Nat} {i : Nat} (h : i < a.length) :
    npGet a i = .ok (a.getD i 0) := by
  unfold npGet
  rw [List.get?_eq_getElem?, List.getElem?_eq_getElem h]
  rw [List.getD_eq_getElem?_getD, List.getElem?_eq_getElem h]
  rfl

theorem npGetT_ok {a : List (List Char)} {i : Nat} (h : i < a.length) :
    npGetT a i = .ok (a.getD i []) := by
  unfold npGetT
  rw [List.get?_eq_getElem?, List.getElem?_eq_getElem h]
  rw [List.getD_eq_getElem?_getD, List.getElem?_eq_getElem h]
  rfl

theorem all_drop {p : Char → Bool} {l : List Char} (h : l.all p = true)
    (m : Nat) : (l.drop m).all p = true := by
  rw [List.all_eq_true] at h ⊢
  exact fun x hx => h x (List.mem_of_mem_drop hx)

theorem all_take {p : Char → Bool} {l : List Char} (h : l.all p = true)
    (m : Nat) : (l.take m).all p = true := by
  rw [List.all_eq_true] at h ⊢
  exact fun x hx => h x (List.mem_of_mem_take hx)

/-! ## Search-index facts for an alignment -/

theorem AlignmentInv.ends_mono_arr {al : Alignment} (inv : AlignmentInv al) :
    MonoArr al.cs_ops_ends := by
  intro i j hij hj
  exact inv.ends_mono hij (by rw [inv.nops_ends]; exact hj)

theorem AlignmentInv.ssR_lt_nops {al : Alignment} (inv : AlignmentInv al)
    {start : Nat} (hn : 1 ≤ al.nops)
    (hlast : start < al.cs_ops_ends.getD (al.nops - 1) 0) :
    searchsortedRight al.cs_ops_ends start < al.nops := by
  rcases Nat.lt_or_ge (searchsortedRight al.cs_ops_ends start) al.nops with h | h
  · exact h
  · exfalso
    have hle := searchsortedRight_le_length al.cs_ops_ends start
    rw [← inv.nops_ends] at hle
    have heq : searchsortedRight al.cs_ops_ends start =
        al.cs_ops_ends.length := by rw [← inv.nops_ends]; omega
    have hall := List.countP_eq_length.mp heq
    have := hall (al.cs_ops_ends.getD (al.nops - 1) 0)
      (getD_mem (by rw [← inv.nops_ends]; omega))
    simp only [decide_eq_true_eq] at this
    omega

theorem AlignmentInv.ends_ssR_gt {al : Alignment} (inv : AlignmentInv al)
    {start : Nat} (hn : 1 ≤ al.nops)
    (hlast : start < al.cs_ops_ends.getD (al.nops - 1) 0) :
    start < al.cs_ops_ends.getD (searchsortedRight al.cs_ops_ends start) 0 :=
  searchsortedRight_above inv.ends_mono_arr (Nat.le_refl _)
    (by rw [← inv.nops_ends]; exact inv.ssR_lt_nops hn hlast)

theorem AlignmentInv.starts_ssR_le {al : Alignment} (inv : AlignmentInv al)
    {start : Nat} (hn : 1 ≤ al.nops)
    (hlast : start < al.cs_ops_ends.getD (al.nops - 1) 0)
    (hpos : 0 < searchsortedRight al.cs_ops_ends start) :
    al.cs_ops_starts.getD (searchsortedRight al.cs_ops_ends start) 0 ≤ start := by
  have hlt := inv.ssR_lt_nops hn hlast
  have hstep : searchsortedRight al.cs_ops_ends start - 1 + 1 =
      searchsortedRight al.cs_ops_ends start := by omega
  rw [← hstep, inv.starts_succ (by omega)]
  exact searchsortedRight_below inv.ends_mono_arr (by omega)

theorem getD_mem_any {α : Type} {a : List α} {d : α} {k : Nat}
    (h : k < a.length) : a.getD k d ∈ a := by
  rw [List.getD_eq_getElem?_getD, List.getElem?_eq_getElem h]
  exact List.getElem_mem h

theorem isTok_of_identity {t : List Char} (h : isIdentityTok t = true) :
    isTok t = true := by simp [isTok, h]

theorem isTok_of_sub {t : List Char} (h : isSubTok t = true) :
    isTok t = true := by simp [isTok, h]

theorem isTok_of_ins {t : List Char} (h : isInsTok t = true) :
    isTok t = true := by simp [isTok, h]

theorem isTok_of_del {t : List Char} (h : isDelTok t = true) :
    isTok t = true := by simp [isTok, h]

theorem extractStart_ok {al : Alignment} {start e si : Nat}
    (inv : AlignmentInv al) (hn : 1 ≤ al.nops) (hse : start < e)
    (hsi : si = searchsortedRight al.cs_ops_ends start)
    (hlast : start < al.cs_ops_ends.getD (al.nops - 1) 0) :
    ∃ f c5,
      extractStart al start e si = .ok ([(si, f)], c5) ∧
      isTok f = true ∧
      (∃ L, cs_op_len_target f = some L ∧
        L + c5 + start = al.cs_ops_ends.getD si 0) ∧
      c5 = al.cs_ops_starts.getD si 0 - start ∧
      (0 < c5 → si = 0) := by
  have hsilt : si < al.nops := by rw [hsi]; exact inv.ssR_lt_nops hn hlast
  have hends : start < al.cs_ops_ends.getD si 0 := by
    rw [hsi]; exact inv.ends_ssR_gt hn hlast
  have hstle : 0 < si → al.cs_ops_starts.getD si 0 ≤ start := by
    intro hpos
    rw [hsi]
    exact inv.starts_ssR_le hn hlast (by rw [← hsi]; exact hpos)
  have hops_len : si < al.cs_ops.length := by
    rw [← inv.nops_eq]; exact hsilt
  have hstarts_len : si < al.cs_ops_starts.length := by
    rw [← inv.nops_starts_of_pos hn]; exact hsilt
  have hends_len : si < al.cs_ops_ends.length := by
    rw [← inv.nops_ends]; exact hsilt
  have hLsi := mapM_len_getD inv.lens_eq si (by rw [← inv.nops_eq]; exact hsilt)
  have hESL := inv.ends_starts_len hsilt
  have hSLE := inv.starts_le_ends hsilt
  have htok : isTok (al.cs_ops.getD si []) = true :=
    inv.ops_tok _ (getD_mem_any hops_len)
  unfold extractStart
  rw [bind_ok (npGet_ok hstarts_len), bind_ok (npGet_ok hends_len),
    bind_ok (npGetT_ok hops_len),
    bind_ok (pyAssert_ok (decide_eq_true hsilt)),
    bind_ok (pyAssert_ok (decide_eq_true hends))]
  by_cases hclip : start < al.cs_ops_starts.getD si 0
  · rw [if_pos hclip]
    have hsi0 : si = 0 := by
      by_contra h0
      have := hstle (Nat.pos_of_ne_zero h0)
      omega
    rw [bind_ok (pyAssert_ok (decide_eq_true hsi0))]
    exact ⟨al.cs_ops.getD si [], al.cs_ops_starts.getD si 0 - start, rfl, htok,
      ⟨al.cs_ops_lengths_target.getD si 0, hLsi, by omega⟩, rfl, fun _ => hsi0⟩
  · rw [if_neg hclip]
    have hsle : al.cs_ops_starts.getD si 0 ≤ start := by omega
    have hsub0 : al.cs_ops_starts.getD si 0 - start = 0 := by omega
    have htok4 := htok
    simp only [isTok, Bool.or_eq_true] at htok4
    rcases htok4 with ((hid | hsub) | hins) | hdel
    · -- identity
      rw [csOpType_of_identity hid]
      dsimp only
      by_cases hwhole : al.cs_ops_starts.getD si 0 = start ∧
          al.cs_ops_ends.getD si 0 ≤ e
      · rw [if_pos hwhole]
        refine ⟨al.cs_ops.getD si [], 0, rfl, htok,
          ⟨al.cs_ops_lengths_target.getD si 0, hLsi, ?_⟩, hsub0.symm, by omega⟩
        omega
      · rw [if_neg hwhole]
        refine ⟨':' :: natToDigits (al.cs_ops_ends.getD si 0 - start), 0, rfl,
          isTok_of_identity (isIdentityTok_colon_natToDigits _),
          ⟨al.cs_ops_ends.getD si 0 - start,
            cs_op_len_target_colon_natToDigits _, by omega⟩, hsub0.symm, by omega⟩
    · -- substitution: always the whole-token branch
      have hlen1 : al.cs_ops_lengths_target.getD si 0 = 1 := by
        have := cs_op_len_target_sub hsub
        rw [hLsi] at this
        simpa using this
      rw [csOpType_of_sub hsub]
      dsimp only
      rw [if_pos ⟨by omega, by omega⟩]
      exact ⟨al.cs_ops.getD si [], 0, rfl, htok,
        ⟨al.cs_ops_lengths_target.getD si 0, hLsi, by omega⟩, hsub0.symm, by omega⟩
    · -- insertion: contradicts start < ends[si] with starts[si] ≤ start
      exfalso
      have hlen0 : al.cs_ops_lengths_target.getD si 0 = 0 := by
        have := cs_op_len_target_ins hins
        rw [hLsi] at this
        simpa using this
      omega
    · -- deletion
      obtain ⟨bs, hop, hbs_ne, hbs_all⟩ := isDelTok_shape hdel
      have hlenbs : al.cs_ops_lengths_target.getD si 0 = bs.length := by
        have := cs_op_len_target_del (hop ▸ hdel)
        rw [← hop, hLsi] at this
        simpa using this
      rw [csOpType_of_del hdel]
      dsimp only
      by_cases hwhole : al.cs_ops_starts.getD si 0 = start ∧
          al.cs_ops_ends.getD si 0 ≤ e
      · rw [if_pos hwhole]
        refine ⟨al.cs_ops.getD si [], 0, rfl, htok,
          ⟨al.cs_ops_lengths_target.getD si 0, hLsi, by omega⟩, hsub0.symm,
          by omega⟩
      · rw [if_neg hwhole]
        have hk_pos : 0 < al.cs_ops_ends.getD si 0 - start := by omega
        have hk_le : al.cs_ops_ends.getD si 0 - start ≤ bs.length := by omega
        have hslice : pyTailSlice (al.cs_ops.getD si [])
            (al.cs_ops_ends.getD si 0 - start) =
            bs.drop (bs.length - (al.cs_ops_ends.getD si 0 - start)) := by
          rw [hop]
          unfold pyTailSlice
          rw [if_neg (by omega)]
          simp only [List.length_cons]
          rw [show bs.length + 1 - (al.cs_ops_ends.getD si 0 - start) =
            (bs.length - (al.cs_ops_ends.getD si 0 - start)) + 1 by omega]
          rfl
        rw [hslice]
        have hdroplen : (bs.drop
            (bs.length - (al.cs_ops_ends.getD si 0 - start))).length =
            al.cs_ops_ends.getD si 0 - start := by
          rw [List.length_drop]
          omega
        have hdel' : isDelTok ('-' :: bs.drop
            (bs.length - (al.cs_ops_ends.getD si 0 - start))) = true := by
          simp only [isDelTok, Bool.and_eq_true, beq_iff_eq]
          refine ⟨trivial, ?_, all_drop hbs_all _⟩
          rw [Bool.not_eq_true', List.isEmpty_eq_false]
          intro hnil
          rw [← List.length_eq_zero] at hnil  
          omega
        refine ⟨_, 0, rfl, isTok_of_del hdel',
          ⟨al.cs_ops_ends.getD si 0 - start, ?_, by omega⟩, hsub0.symm, by omega⟩
        rw [cs_op_len_target_del hdel']
        rw [hdroplen]

theorem extractEnd_ok {al : Alignment} {e si ei : Nat}
    (inv : AlignmentInv al) (hn : 1 ≤ al.nops)
    (hei : ei < al.nops) (hsiei : si ≤ ei)
    (hstle : al.cs_ops_starts.getD ei 0 ≤ e)
    (hstrict : e < al.cs_ops_ends.getD ei 0 → al.cs_ops_starts.getD ei 0 < e)
    (hassert : e ≤ al.cs_ops_ends.getD ei 0 ∨ ei = al.nops - 1) :
    ∃ g c3,
      extractEnd al e si ei = .ok (g, c3) ∧
      isTok g = true ∧
      (∃ L, cs_op_len_target g = some L ∧
        L + c3 + al.cs_ops_starts.getD ei 0 = e) ∧
      c3 = e - al.cs_ops_ends.getD ei 0 ∧
      (0 < c3 → ei = al.nops - 1) ∧
      (al.cs_ops_ends.getD ei 0 ≤ e → g = al.cs_ops.getD ei []) := by
  have hops_len : ei < al.cs_ops.length := by rw [← inv.nops_eq]; exact hei
  have hstarts_len : ei < al.cs_ops_starts.length := by
    rw [← inv.nops_starts_of_pos hn]; exact hei
  have hends_len : ei < al.cs_ops_ends.length := by
    rw [← inv.nops_ends]; exact hei
  have hLei := mapM_len_getD inv.lens_eq ei (by rw [← inv.nops_eq]; exact hei)
  have hESL := inv.ends_starts_len hei
  have htok : isTok (al.cs_ops.getD ei []) = true :=
    inv.ops_tok _ (getD_mem_any hops_len)
  unfold extractEnd
  rw [bind_ok (npGet_ok hstarts_len), bind_ok (npGet_ok hends_len),
    bind_ok (npGetT_ok hops_len),
    bind_ok (pyAssert_ok (by
      rw [decide_eq_true hsiei, decide_eq_true (Nat.le_of_lt hei)]; rfl)),
    bind_ok (pyAssert_ok (by
      rcases hassert with h | h
      · rw [decide_eq_true h]
        rfl
      · rw [decide_eq_true h]
        exact Bool.or_true _)),
    bind_ok (pyAssert_ok (decide_eq_true hstle))]
  by_cases hlt : al.cs_ops_ends.getD ei 0 < e
  · rw [if_pos hlt]
    have hlast : ei = al.nops - 1 := by
      rcases hassert with h | h
      · omega
      · exact h
    rw [bind_ok (pyAssert_ok (decide_eq_true hlast))]
    exact ⟨al.cs_ops.getD ei [], e - al.cs_ops_ends.getD ei 0, rfl, htok,
      ⟨al.cs_ops_lengths_target.getD ei 0, hLei, by omega⟩, rfl,
      fun _ => hlast, fun _ => rfl⟩
  · rw [if_neg hlt]
    by_cases heq : e = al.cs_ops_ends.getD ei 0
    · rw [if_pos heq]
      refine ⟨al.cs_ops.getD ei [], 0, rfl, htok,
        ⟨al.cs_ops_lengths_target.getD ei 0, hLei, by omega⟩, by omega,
        by omega, fun _ => rfl⟩
    · rw [if_neg heq]
      have hlt' : e < al.cs_ops_ends.getD ei 0 := by omega
      have hstlt : al.cs_ops_starts.getD ei 0 < e := hstrict hlt'
      rw [bind_ok (pyAssert_ok (decide_eq_true (by omega :
        0 < e - al.cs_ops_starts.getD ei 0)))]
      have htok4 := htok
      simp only [isTok, Bool.or_eq_true] at htok4
      rcases htok4 with ((hid | hsub) | hins) | hdel
      · rw [csOpType_of_identity hid]
        exact ⟨':' :: natToDigits (e - al.cs_ops_starts.getD ei 0), 0, rfl,
          isTok_of_identity (isIdentityTok_colon_natToDigits _),
          ⟨e - al.cs_ops_starts.getD ei 0,
            cs_op_len_target_colon_natToDigits _, by omega⟩, by omega,
          by omega, fun h => absurd h (by omega)⟩
      · exfalso
        have hlen1 : al.cs_ops_lengths_target.getD ei 0 = 1 := by
          have := cs_op_len_target_sub hsub
          rw [hLei] at this
          simpa using this
        omega
      · exfalso
        have hlen0 : al.cs_ops_lengths_target.getD ei 0 = 0 := by
          have := cs_op_len_target_ins hins
          rw [hLei] at this
          simpa using this
        omega
      · obtain ⟨bs, hop, hbs_ne, hbs_all⟩ := isDelTok_shape hdel
        have hlenbs : al.cs_ops_lengths_target.getD ei 0 = bs.length := by
          have := cs_op_len_target_del (hop ▸ hdel)
          rw [← hop, hLei] at this
          simpa using this
        rw [csOpType_of_del hdel]
        have hk_lt : e - al.cs_ops_starts.getD ei 0 < bs.length := by omega
        have htake : (al.cs_ops.getD ei []).take
            (e - al.cs_ops_starts.getD ei 0 + 1) =
            '-' :: bs.take (e - al.cs_ops_starts.getD ei 0) := by
          rw [hop]
          rfl
        rw [htake]
        have htakelen : (bs.take (e - al.cs_ops_starts.getD ei 0)).length =
            e - al.cs_ops_starts.getD ei 0 := by
          rw [List.length_take]
          omega
        have hdel' : isDelTok ('-' ::
            bs.take (e - al.cs_ops_starts.getD ei 0)) = true := by
          simp only [isDelTok, Bool.and_eq_true, beq_iff_eq]
          refine ⟨trivial, ?_, all_take hbs_all _⟩
          rw [Bool.not_eq_true', List.isEmpty_eq_false]
          intro hnil
          rw [← List.length_eq_zero] at hnil
          omega
        refine ⟨_, 0, rfl, isTok_of_del hdel',
          ⟨e - al.cs_ops_starts.getD ei 0, ?_, by omega⟩, by omega, by omega,
          fun h => absurd h (by omega)⟩
        rw [cs_op_len_target_del hdel', htakelen]

theorem extractMerge_ok {al : Alignment} {start e si c5 c3 : Nat}
    (inv : AlignmentInv al) (hn : 1 ≤ al.nops) (hsilt : si < al.nops)
    (hnotins : csOpType (al.cs_ops.getD si []) ≠ some .insertion)
    (hse : start < e)
    (hends : start < al.cs_ops_ends.getD si 0)
    (hstarts : al.cs_ops_starts.getD si 0 < e)
    (hc5 : c5 = al.cs_ops_starts.getD si 0 - start)
    (hc3 : c3 = e - al.cs_ops_ends.getD si 0) :
    ∃ f, extractMerge al start e si c5 c3 = .ok [(si, f)] ∧
      isTok f = true ∧
      ∃ L, cs_op_len_target f = some L ∧ L + c5 + c3 + start = e := by
  have hops_len : si < al.cs_ops.length := by rw [← inv.nops_eq]; exact hsilt
  have hstarts_len : si < al.cs_ops_starts.length := by
    rw [← inv.nops_starts_of_pos hn]; exact hsilt
  have hends_len : si < al.cs_ops_ends.length := by
    rw [← inv.nops_ends]; exact hsilt
  have hLsi := mapM_len_getD inv.lens_eq si (by rw [← inv.nops_eq]; exact hsilt)
  have hESL := inv.ends_starts_len hsilt
  have htok : isTok (al.cs_ops.getD si []) = true :=
    inv.ops_tok _ (getD_mem_any hops_len)
  unfold extractMerge
  rw [bind_ok (npGetT_ok hops_len)]
  have htok4 := htok
  simp only [isTok, Bool.or_eq_true] at htok4
  rcases htok4 with ((hid | hsub) | hins) | hdel
  · -- identity
    rw [csOpType_of_identity hid]
    exact ⟨':' :: natToDigits (e - start - c5 - c3),
      rfl, isTok_of_identity (isIdentityTok_colon_natToDigits _),
      ⟨e - start - c5 - c3, cs_op_len_target_colon_natToDigits _, by omega⟩⟩
  · -- substitution
    have hlen1 : al.cs_ops_lengths_target.getD si 0 = 1 := by
      have := cs_op_len_target_sub hsub
      rw [hLsi] at this
      simpa using this
    rw [csOpType_of_sub hsub]
    exact ⟨al.cs_ops.getD si [], rfl, htok,
      ⟨al.cs_ops_lengths_target.getD si 0, hLsi, by omega⟩⟩
  · -- insertion excluded by hypothesis
    exact absurd (csOpType_of_ins hins) hnotins
  · -- deletion
    obtain ⟨bs, hop, hbs_ne, hbs_all⟩ := isDelTok_shape hdel
    have hlenbs : al.cs_ops_lengths_target.getD si 0 = bs.length := by
      have := cs_op_len_target_del (hop ▸ hdel)
      rw [← hop, hLsi] at this
      simpa using this
    rw [csOpType_of_del hdel]
    rw [bind_ok (npGet_ok hstarts_len), bind_ok (npGet_ok hends_len)]
    dsimp only
    have hslice : pySlice (al.cs_ops.getD si [])
        (start - al.cs_ops_starts.getD si 0 + 1)
        ((al.cs_ops_ends.getD si 0 - al.cs_ops_starts.getD si 0 -
          (al.cs_ops_ends.getD si 0 - e)) + 1) =
        (bs.drop (start - al.cs_ops_starts.getD si 0)).take
          (al.cs_ops_ends.getD si 0 - al.cs_ops_starts.getD si 0 -
            (al.cs_ops_ends.getD si 0 - e) -
            (start - al.cs_ops_starts.getD si 0)) := by
      rw [hop]
      unfold pySlice
      rw [List.drop_succ_cons]
      congr 1
      omega
    rw [hslice]
    have hbs_pos : 0 < bs.length := List.length_pos.mpr hbs_ne
    have hfraglen : ((bs.drop (start - al.cs_ops_starts.getD si 0)).take
        (al.cs_ops_ends.getD si 0 - al.cs_ops_starts.getD si 0 -
          (al.cs_ops_ends.getD si 0 - e) -
          (start - al.cs_ops_starts.getD si 0))).length =
        al.cs_ops_ends.getD si 0 - al.cs_ops_starts.getD si 0 -
          (al.cs_ops_ends.getD si 0 - e) -
          (start - al.cs_ops_starts.getD si 0) := by
      rw [List.length_take, List.length_drop]
      omega
    have hfragpos : 0 < al.cs_ops_ends.getD si 0 -
        al.cs_ops_starts.getD si 0 - (al.cs_ops_ends.getD si 0 - e) -
        (start - al.cs_ops_starts.getD si 0) := by
      omega
    have hdel' : isDelTok ('-' ::
        (bs.drop (start - al.cs_ops_starts.getD si 0)).take
          (al.cs_ops_ends.getD si 0 - al.cs_ops_starts.getD si 0 -
            (al.cs_ops_ends.getD si 0 - e) -
            (start - al.cs_ops_starts.getD si 0))) = true := by
      simp only [isDelTok, Bool.and_eq_true, beq_iff_eq]
      refine ⟨trivial, ?_, all_take (all_drop hbs_all _) _⟩
      rw [Bool.not_eq_true', List.isEmpty_eq_false]
      intro hnil
      rw [← List.length_eq_zero] at hnil
      omega
    refine ⟨_, rfl, isTok_of_del hdel', ⟨_, cs_op_len_target_del hdel', ?_⟩⟩
    rw [hfraglen]
    omega

/-! ## Middle-slice and finalize lemmas -/

theorem sum_range'_getD (l : List Nat) :
    ∀ (k i : Nat), i + k ≤ l.length →
    ((List.range' i k).map (fun j => l.getD j 0)).sum + (l.take i).sum =
      (l.take (i + k)).sum := by
  intro k
  induction k with
  | zero => intro i h; simp
  | succ k ih =>
    intro i h
    rw [List.range'_succ]
    simp only [List.map_cons, List.sum_cons]
    have h1 := ih (i + 1) (by omega)
    have h2 := take_succ_sum_getD l (show i < l.length by omega)
    have h3 : i + (k + 1) = (i + 1) + k := by omega
    rw [h3]
    omega

theorem mapM_indices {ops : List (List Char)} {lens : List Nat}
    (hl : ops.mapM cs_op_len_target = some lens) :
    ∀ (ks : List Nat), (∀ k ∈ ks, k < ops.length) →
    (ks.map (fun k => ops.getD k [])).mapM cs_op_len_target =
      some (ks.map (fun k => lens.getD k 0)) := by
  intro ks
  induction ks with
  | nil => intro _; rfl
  | cons k ks ih =>
    intro hk
    simp only [List.map_cons, List.mapM_cons]
    rw [mapM_len_getD hl k (hk k (List.mem_cons_self k ks)),
      ih (fun j hj => hk j (List.mem_cons_of_mem _ hj))]
    rfl

theorem taggedSlice_snd (ops : List (List Char)) (i j : Nat) :
    (taggedSlice ops i j).map Prod.snd =
      (List.range' i (j - i)).map (fun k => ops.getD k []) := by
  unfold taggedSlice
  rw [List.map_map]
  rfl

theorem taggedSlice_mem {ops : List (List Char)} {i j : Nat}
    {pr : Nat × List Char} (h : pr ∈ taggedSlice ops i j) :
    i ≤ pr.1 ∧ pr.1 < j ∧ pr.2 = ops.getD pr.1 [] := by
  unfold taggedSlice at h
  obtain ⟨k, hk, rfl⟩ := List.mem_map.mp h
  obtain ⟨h1, h2⟩ := List.mem_range'_1.mp hk
  exact ⟨h1, by omega, rfl⟩

theorem mem_taggedSlice {ops : List (List Char)} {i j k : Nat}
    (h1 : i ≤ k) (h2 : k < j) :
    (k, ops.getD k []) ∈ taggedSlice ops i j := by
  unfold taggedSlice
  exact List.mem_map.mpr ⟨k, List.mem_range'_1.mpr ⟨h1, by omega⟩, rfl⟩

theorem extractFinalize_ok {frags : List (Nat × List Char)}
    {c5 c3 start e : Nat} {ls : List Nat}
    (htoks : ∀ pr ∈ frags, isTok pr.2 = true)
    (hmapM : (frags.map Prod.snd).mapM cs_op_len_target = some ls)
    (hsum : ls.sum + c5 + c3 = e - start) :
    extractFinalize frags c5 c3 start e = .ok (some (frags, c5, c3)) := by
  unfold extractFinalize
  rw [splitCs_flatten (by
    intro t ht
    obtain ⟨pr, hpr, rfl⟩ := List.mem_map.mp ht
    exact htoks pr hpr)]
  dsimp only
  rw [hmapM]
  dsimp only
  rw [if_pos hsum]

theorem extract_frags_ok {al : Alignment} {start e : Nat}
    (inv : AlignmentInv al) (hn : 1 ≤ al.nops) (hse : start < e)
    (hlast : start < al.cs_ops_ends.getD (al.nops - 1) 0)
    (hfirst : al.cs_ops_starts.getD 0 0 < e)
    (hdeg : ¬(al.nops = 1 ∧
      csOpType (al.cs_ops.getD 0 []) = some .insertion)) :
    ∃ frags c5 c3,
      extract_cs_frags al start e = .ok (some (frags, c5, c3)) ∧
      (∀ pr ∈ frags, searchsortedRight al.cs_ops_ends start ≤ pr.1 ∧
        pr.1 ≤ advanceEndIdx al.cs_ops_ends al.nops e
          (searchsortedRight al.cs_ops_ends e - 1) al.nops) ∧
      (∀ k, searchsortedRight al.cs_ops_ends start < k →
        k < advanceEndIdx al.cs_ops_ends al.nops e
          (searchsortedRight al.cs_ops_ends e - 1) al.nops →
        (k, al.cs_ops.getD k []) ∈ frags) ∧
      (searchsortedRight al.cs_ops_ends start <
          advanceEndIdx al.cs_ops_ends al.nops e
            (searchsortedRight al.cs_ops_ends e - 1) al.nops →
        al.cs_ops_ends.getD (advanceEndIdx al.cs_ops_ends al.nops e
          (searchsortedRight al.cs_ops_ends e - 1) al.nops) 0 ≤ e →
        (advanceEndIdx al.cs_ops_ends al.nops e
            (searchsortedRight al.cs_ops_ends e - 1) al.nops,
          al.cs_ops.getD (advanceEndIdx al.cs_ops_ends al.nops e
            (searchsortedRight al.cs_ops_ends e - 1) al.nops) []) ∈ frags) := by
  have hsilt : searchsortedRight al.cs_ops_ends start < al.nops :=
    inv.ssR_lt_nops hn hlast
  have hends_si : start <
      al.cs_ops_ends.getD (searchsortedRight al.cs_ops_ends start) 0 :=
    inv.ends_ssR_gt hn hlast
  have hstle_si : 0 < searchsortedRight al.cs_ops_ends start →
      al.cs_ops_starts.getD (searchsortedRight al.cs_ops_ends start) 0 ≤
        start := inv.starts_ssR_le hn hlast
  obtain ⟨f, c5, hstart_eq, hftok, ⟨Lf, hLf, hLfsum⟩, hc5eq, hc5pos⟩ :=
    extractStart_ok inv hn hse rfl hlast
  -- facts about the advanced end index
  have hj2si : searchsortedRight al.cs_ops_ends start ≤
      searchsortedRight al.cs_ops_ends e :=
    searchsortedRight_mono _ (Nat.le_of_lt hse)
  have hj2len : searchsortedRight al.cs_ops_ends e ≤ al.nops := by
    have := searchsortedRight_le_length al.cs_ops_ends e
    rw [← inv.nops_ends] at this
    exact this
  have hei0lt : searchsortedRight al.cs_ops_ends e - 1 < al.nops := by omega
  have heilt : advanceEndIdx al.cs_ops_ends al.nops e
      (searchsortedRight al.cs_ops_ends e - 1) al.nops < al.nops :=
    adv_lt _ _ _ _ _ hei0lt
  have hsiei : searchsortedRight al.cs_ops_ends start ≤
      advanceEndIdx al.cs_ops_ends al.nops e
        (searchsortedRight al.cs_ops_ends e - 1) al.nops := by
    rcases Nat.lt_or_ge (searchsortedRight al.cs_ops_ends start)
      (searchsortedRight al.cs_ops_ends e) with hlt | hge
    · -- si < j2: si ≤ j2 - 1 = ei0 ≤ ei
      exact Nat.le_trans (by omega) (adv_ge _ _ _ _ _)
    · -- si = j2
      have hsij2 : searchsortedRight al.cs_ops_ends start =
          searchsortedRight al.cs_ops_ends e := by omega
      rcases Nat.eq_zero_or_pos (searchsortedRight al.cs_ops_ends start)
        with h0 | hpos
      · rw [h0]; omega
      · -- ei0 = si - 1 and the while loop advances at least once
        have hprev : al.cs_ops_ends.getD
            (searchsortedRight al.cs_ops_ends start - 1) 0 ≤ start :=
          searchsortedRight_below inv.ends_mono_arr (by omega)
        obtain ⟨m, hm⟩ : ∃ m, al.nops = m + 1 := ⟨al.nops - 1, by omega⟩
        rw [← hsij2, hm]
        rw [@adv_step al.cs_ops_ends (m + 1) e
          (searchsortedRight al.cs_ops_ends start - 1) m (by omega)
          (by omega)]
        exact Nat.le_trans (by omega) (adv_ge _ _ _ _ _)
  have hexit : e ≤ al.cs_ops_ends.getD (advanceEndIdx al.cs_ops_ends al.nops
      e (searchsortedRight al.cs_ops_ends e - 1) al.nops) 0 ∨
      advanceEndIdx al.cs_ops_ends al.nops e
        (searchsortedRight al.cs_ops_ends e - 1) al.nops = al.nops - 1 :=
    adv_exit _ _ _ _ _ hei0lt (by omega)
  have hstgood : al.cs_ops_starts.getD (advanceEndIdx al.cs_ops_ends al.nops
        e (searchsortedRight al.cs_ops_ends e - 1) al.nops) 0 ≤ e ∧
      (e < al.cs_ops_ends.getD (advanceEndIdx al.cs_ops_ends al.nops e
          (searchsortedRight al.cs_ops_ends e - 1) al.nops) 0 →
        al.cs_ops_starts.getD (advanceEndIdx al.cs_ops_ends al.nops e
          (searchsortedRight al.cs_ops_ends e - 1) al.nops) 0 < e) := by
    rcases adv_move al.cs_ops_ends al.nops e al.nops
      (searchsortedRight al.cs_ops_ends e - 1) with hmove | ⟨hlt, hprev⟩
    · rw [hmove]
      rcases Nat.eq_zero_or_pos (searchsortedRight al.cs_ops_ends e)
        with h0 | hpos
      · rw [h0]
        simp only [Nat.zero_sub]
        constructor
        · exact Nat.le_of_lt hfirst
        · intro _; exact hfirst
      · have hbelow : al.cs_ops_ends.getD
            (searchsortedRight al.cs_ops_ends e - 1) 0 ≤ e :=
          searchsortedRight_below inv.ends_mono_arr (by omega)
        have hsle := inv.starts_le_ends
          (show searchsortedRight al.cs_ops_ends e - 1 < al.nops by omega)
        exact ⟨by omega, by omega⟩
    · have heige : 1 ≤ advanceEndIdx al.cs_ops_ends al.nops e
          (searchsortedRight al.cs_ops_ends e - 1) al.nops := by omega
      have hstep : advanceEndIdx al.cs_ops_ends al.nops e
          (searchsortedRight al.cs_ops_ends e - 1) al.nops - 1 + 1 =
          advanceEndIdx al.cs_ops_ends al.nops e
            (searchsortedRight al.cs_ops_ends e - 1) al.nops := by omega
      have h1 := inv.starts_succ (show advanceEndIdx al.cs_ops_ends al.nops
          e (searchsortedRight al.cs_ops_ends e - 1) al.nops - 1 + 1 <
          al.nops by omega)
      rw [hstep] at h1
      rw [h1]
      exact ⟨by omega, by omega⟩
  obtain ⟨g, c3, hend_eq, hgtok, ⟨Lg, hLg, hLgsum⟩, hc3eq, hc3pos, hgwhole⟩ :=
    extractEnd_ok inv hn heilt hsiei hstgood.1 hstgood.2 hexit
  -- reduce the main body
  have hends_ne : al.cs_ops_ends ≠ [] := by
    intro h
    rw [inv.nops_ends, h] at hn
    simp at hn
  have hstarts_ne : al.cs_ops_starts ≠ [] := by
    rw [inv.starts_eq]
    simp
  have hstarts_mono_arr : MonoArr al.cs_ops_starts := by
    intro i j hij hj
    exact inv.starts_mono hij (by rw [inv.nops_starts_of_pos hn]; exact hj)
  have hamax : npAmax al.cs_ops_ends =
      .ok (al.cs_ops_ends.getD (al.nops - 1) 0) := by
    rw [npAmax_sorted inv.ends_mono_arr hends_ne, ← inv.nops_ends]
  have hamin : npAmin al.cs_ops_starts = .ok (al.cs_ops_starts.getD 0 0) :=
    npAmin_sorted hstarts_mono_arr hstarts_ne
  unfold extract_cs_frags
  rw [if_neg (by omega : ¬ e ≤ start)]
  rw [bind_ok hamax]
  rw [if_neg (by omega : ¬ al.cs_ops_ends.getD (al.nops - 1) 0 ≤ start)]
  rw [bind_ok hamin]
  rw [if_neg (by omega : ¬ e ≤ al.cs_ops_starts.getD 0 0)]
  rw [bind_ok hstart_eq]
  dsimp only
  rw [bind_ok hend_eq]
  dsimp only
  by_cases hsie : searchsortedRight al.cs_ops_ends start =
      advanceEndIdx al.cs_ops_ends al.nops e
        (searchsortedRight al.cs_ops_ends e - 1) al.nops
  · -- single-token merge
    rw [if_pos hsie]
    have hnotins : csOpType (al.cs_ops.getD
        (searchsortedRight al.cs_ops_ends start) []) ≠
        some .insertion := by
      intro hins
      have hlen0 : al.cs_ops_lengths_target.getD
          (searchsortedRight al.cs_ops_ends start) 0 = 0 := by
        have h1 := mapM_len_getD inv.lens_eq _
          (by rw [← inv.nops_eq]; exact hsilt)
        have h2 : cs_op_len_target (al.cs_ops.getD
            (searchsortedRight al.cs_ops_ends start) []) = some 0 := by
          unfold cs_op_len_target
          rw [hins]
        rw [h1] at h2
        simpa using h2
      have hESL := inv.ends_starts_len hsilt
      have hsi0 : searchsortedRight al.cs_ops_ends start = 0 := by
        by_contra h0
        have := hstle_si (Nat.pos_of_ne_zero h0)
        omega
      have hn2 : al.nops = 1 := by
        by_contra h1
        -- with ≥ 2 ops the while loop leaves index 0
        have hge2 : 2 ≤ al.nops := by omega
        have hends0 : al.cs_ops_ends.getD 0 0 < e := by
          have := inv.starts_zero
          rw [hsi0] at hESL hends_si hlen0
          omega
        have heige : 1 ≤ advanceEndIdx al.cs_ops_ends al.nops e
            (searchsortedRight al.cs_ops_ends e - 1) al.nops := by
          rcases Nat.eq_zero_or_pos
            (searchsortedRight al.cs_ops_ends e - 1) with h0 | hpos
          · obtain ⟨m, hm⟩ : ∃ m, al.nops = m + 1 := ⟨al.nops - 1, by omega⟩
            rw [h0, hm]
            rw [@adv_step al.cs_ops_ends (m + 1) e 0 m hends0 (by omega)]
            exact Nat.le_trans (by omega) (adv_ge _ _ _ _ _)
          · exact Nat.le_trans hpos (adv_ge _ _ _ _ _)
        have hcontr := hsie
        rw [hsi0] at hcontr
        omega
      rw [hsi0] at hins
      exact hdeg ⟨hn2, hins⟩
    have hstarts_si_lt : al.cs_ops_starts.getD
        (searchsortedRight al.cs_ops_ends start) 0 < e := by
      rcases Nat.lt_or_ge start (al.cs_ops_starts.getD
          (searchsortedRight al.cs_ops_ends start) 0) with hlt | hge
      · have hsi0 : searchsortedRight al.cs_ops_ends start = 0 := by
          by_contra h0
          have := hstle_si (Nat.pos_of_ne_zero h0)
          omega
        rw [hsi0]
        exact hfirst
      · omega
    have hc3' : c3 = e - al.cs_ops_ends.getD
        (searchsortedRight al.cs_ops_ends start) 0 := by
      rw [hsie]
      exact hc3eq
    obtain ⟨fm, hmerge_eq, hmtok, ⟨Lm, hLm, hLmsum⟩⟩ :=
      extractMerge_ok inv hn hsilt hnotins hse hends_si hstarts_si_lt
        hc5eq hc3'

    rw [bind_ok hmerge_eq]
    have hmapM : ([(searchsortedRight al.cs_ops_ends start,
        fm)].map Prod.snd).mapM cs_op_len_target = some [Lm] := by
      simp only [List.map_cons, List.map_nil, List.mapM_cons, List.mapM_nil,
        hLm]
      rfl
    rw [extractFinalize_ok (by
        intro pr hpr
        rcases List.mem_cons.mp hpr with rfl | h
        · exact hmtok
        · simp at h)
      hmapM (by simp only [List.sum_cons, List.sum_nil]; omega)]
    refine ⟨_, c5, c3, rfl, ?_, ?_, ?_⟩
    · intro pr hpr
      rcases List.mem_cons.mp hpr with rfl | h
      · exact ⟨Nat.le_refl _, by omega⟩
      · simp at h
    · intro k hk1 hk2
      omega
    · intro hlt _
      omega
  · -- multi-token assembly
    rw [if_neg hsie]
    have hsilt_ei : searchsortedRight al.cs_ops_ends start <
        advanceEndIdx al.cs_ops_ends al.nops e
          (searchsortedRight al.cs_ops_ends e - 1) al.nops := by omega
    -- sums over the assembled fragments
    have hmid := mapM_indices inv.lens_eq
      (List.range' (searchsortedRight al.cs_ops_ends start + 1)
        (advanceEndIdx al.cs_ops_ends al.nops e
          (searchsortedRight al.cs_ops_ends e - 1) al.nops -
          (searchsortedRight al.cs_ops_ends start + 1)))
      (by
        intro k hk
        obtain ⟨h1, h2⟩ := List.mem_range'_1.mp hk
        rw [← inv.nops_eq]
        omega)
    have hmapM : ((([(searchsortedRight al.cs_ops_ends start, f)] ++
        taggedSlice al.cs_ops (searchsortedRight al.cs_ops_ends start + 1)
          (advanceEndIdx al.cs_ops_ends al.nops e
            (searchsortedRight al.cs_ops_ends e - 1) al.nops) ++
        [(advanceEndIdx al.cs_ops_ends al.nops e
          (searchsortedRight al.cs_ops_ends e - 1) al.nops, g)]).map
          Prod.snd).mapM cs_op_len_target) =
        some ([Lf] ++ (List.range'
          (searchsortedRight al.cs_ops_ends start + 1)
          (advanceEndIdx al.cs_ops_ends al.nops e
            (searchsortedRight al.cs_ops_ends e - 1) al.nops -
            (searchsortedRight al.cs_ops_ends start + 1))).map
          (fun k => al.cs_ops_lengths_target.getD k 0) ++ [Lg]) := by
      rw [List.map_append, List.map_append, taggedSlice_snd]
      rw [List.mapM_append, List.mapM_append]
      simp only [List.map_cons, List.map_nil, List.mapM_cons, List.mapM_nil,
        hLf, hLg, hmid]
      rfl
    have hmidsum : ((List.range'
        (searchsortedRight al.cs_ops_ends start + 1)
        (advanceEndIdx al.cs_ops_ends al.nops e
          (searchsortedRight al.cs_ops_ends e - 1) al.nops -
          (searchsortedRight al.cs_ops_ends start + 1))).map
        (fun k => al.cs_ops_lengths_target.getD k 0)).sum +
        al.cs_ops_ends.getD (searchsortedRight al.cs_ops_ends start) 0 =
        al.cs_ops_starts.getD (advanceEndIdx al.cs_ops_ends al.nops e
          (searchsortedRight al.cs_ops_ends e - 1) al.nops) 0 := by
      have hr := sum_range'_getD al.cs_ops_lengths_target
        (advanceEndIdx al.cs_ops_ends al.nops e
          (searchsortedRight al.cs_ops_ends e - 1) al.nops -
          (searchsortedRight al.cs_ops_ends start + 1))
        (searchsortedRight al.cs_ops_ends start + 1)
        (by rw [← inv.nops_lens]; omega)
    

      rw [show searchsortedRight al.cs_ops_ends start + 1 +
        (advanceEndIdx al.cs_ops_ends al.nops e
          (searchsortedRight al.cs_ops_ends e - 1) al.nops -
          (searchsortedRight al.cs_ops_ends start + 1)) =
        advanceEndIdx al.cs_ops_ends al.nops e
          (searchsortedRight al.cs_ops_ends e - 1) al.nops by omega] at hr
      have hendsi := inv.ends_getD hsilt
      have hstartei := inv.starts_getD heilt
      omega
    have hfinal : extractFinalize
        ([(searchsortedRight al.cs_ops_ends start, f)] ++
        taggedSlice al.cs_ops (searchsortedRight al.cs_ops_ends start + 1)
          (advanceEndIdx al.cs_ops_ends al.nops e
            (searchsortedRight al.cs_ops_ends e - 1) al.nops) ++
        [(advanceEndIdx al.cs_ops_ends al.nops e
          (searchsortedRight al.cs_ops_ends e - 1) al.nops, g)])
        c5 c3 start e = .ok (some
        ([(searchsortedRight al.cs_ops_ends start, f)] ++
        taggedSlice al.cs_ops (searchsortedRight al.cs_ops_ends start + 1)
          (advanceEndIdx al.cs_ops_ends al.nops e
            (searchsortedRight al.cs_ops_ends e - 1) al.nops) ++
        [(advanceEndIdx al.cs_ops_ends al.nops e
          (searchsortedRight al.cs_ops_ends e - 1) al.nops, g)],
        c5, c3)) := extractFinalize_ok
      (by
        intro pr hpr
        rcases List.mem_append.mp hpr with hpr | hpr
        · rcases List.mem_append.mp hpr with hpr | hpr
          · rcases List.mem_cons.mp hpr with rfl | h
            · exact hftok
            · simp at h
          · obtain ⟨h1, h2, h3⟩ := taggedSlice_mem hpr
            rw [h3]
            exact inv.ops_tok _ (getD_mem_any (by rw [← inv.nops_eq]; omega))
        · rcases List.mem_cons.mp hpr with rfl | h
          · exact hgtok
          · simp at h)
      hmapM
      (by
        simp only [List.sum_append, List.sum_cons, List.sum_nil]
        have hee : al.cs_ops_ends.getD
            (searchsortedRight al.cs_ops_ends start) 0 ≤
            al.cs_ops_starts.getD (advanceEndIdx al.cs_ops_ends al.nops e
              (searchsortedRight al.cs_ops_ends e - 1) al.nops) 0 := by
          omega
        omega)
    rw [ok_bind, hfinal]
    refine ⟨_, c5, c3, rfl, ?_, ?_, ?_⟩
    · intro pr hpr
      rcases List.mem_append.mp hpr with hpr | hpr
      · rcases List.mem_append.mp hpr with hpr | hpr
        · rcases List.mem_cons.mp hpr with rfl | h
          · exact ⟨Nat.le_refl _, by omega⟩
          · simp at h
        · obtain ⟨h1, h2, h3⟩ := taggedSlice_mem hpr
          exact ⟨by omega, by omega⟩
      · rcases List.mem_cons.mp hpr with rfl | h
        · exact ⟨by omega, Nat.le_refl _⟩
        · simp at h
    · intro k hk1 hk2
      refine List.mem_append.mpr (Or.inl (List.mem_append.mpr (Or.inr ?_)))
      exact mem_taggedSlice (by omega) hk2
    · intro _ hwhole
      refine List.mem_append.mpr (Or.inr ?_)
      rw [← hgwhole hwhole]
      exact List.mem_cons_self _ _

theorem error_bind {α β : Type} (msg : String) (f : α → Except String β) :
    ((Except.error msg : Except String α) >>= f) = .error msg := rfl

theorem extract_frags_reject {al : Alignment} {start e : Nat}
    (inv : AlignmentInv al) (hn : 1 ≤ al.nops) (hse : start < e)
    (hrej : al.cs_ops_ends.getD (al.nops - 1) 0 ≤ start ∨
      e ≤ al.cs_ops_starts.getD 0 0) :
    extract_cs_frags al start e = .ok none := by
  have hends_ne : al.cs_ops_ends ≠ [] := by
    intro h
    rw [inv.nops_ends, h] at hn
    simp at hn
  have hstarts_ne : al.cs_ops_starts ≠ [] := by
    rw [inv.starts_eq]
    simp
  have hstarts_mono_arr : MonoArr al.cs_ops_starts := by
    intro i j hij hj
    exact inv.starts_mono hij (by rw [inv.nops_starts_of_pos hn]; exact hj)
  have hamax : npAmax al.cs_ops_ends =
      .ok (al.cs_ops_ends.getD (al.nops - 1) 0) := by
    rw [npAmax_sorted inv.ends_mono_arr hends_ne, ← inv.nops_ends]
  have hamin : npAmin al.cs_ops_starts = .ok (al.cs_ops_starts.getD 0 0) :=
    npAmin_sorted hstarts_mono_arr hstarts_ne
  unfold extract_cs_frags
  rw [if_neg (by omega : ¬ e ≤ start)]
  rw [bind_ok hamax]
  by_cases h1 : al.cs_ops_ends.getD (al.nops - 1) 0 ≤ start
  · rw [if_pos h1]
  · rw [if_neg h1, bind_ok hamin, if_pos (by omega : e ≤
      al.cs_ops_starts.getD 0 0)]

/-! ## Claim C6: overlap detection -/

/-- C6 (amended): for every successfully constructed Alignment with at
least one token and every interval `0 ≤ start < end`, `extract_cs`
returns `None` whenever `[start, end)` lies entirely left of `starts[0]`
or entirely right of `ends[-1]`; otherwise it returns a non-`None`
triple, except in the degenerate case where the alignment consists of a
single insertion token, in which case the call raises the internal
error `start_idx != end_idx for insertion` instead. -/
theorem c6_overlap_detection (sa : SamRecord) (al : Alignment)
    (start e : Nat) (hmk : mkAlignment sa = .ok al) (hn : 1 ≤ al.nops)
    (hse : start < e) :
    ((al.cs_ops_ends.getD (al.nops - 1) 0 ≤ start ∨
      e ≤ al.cs_ops_starts.getD 0 0) →
      extract_cs al start e = .ok none) ∧
    (start < al.cs_ops_ends.getD (al.nops - 1) 0 →
      al.cs_ops_starts.getD 0 0 < e →
      ¬(al.nops = 1 ∧ csOpType (al.cs_ops.getD 0 []) = some .insertion) →
      ∃ fcs c5 c3, extract_cs al start e = .ok (some (fcs, c5, c3))) := by
  have inv := mkAlignment_inv hmk
  constructor
  · intro hrej
    unfold extract_cs
    rw [extract_frags_reject inv hn hse hrej]
  · intro hlast hfirst hdeg
    obtain ⟨frags, c5, c3, hok, -, -, -⟩ :=
      extract_frags_ok inv hn hse hlast hfirst hdeg
    refine ⟨(frags.map Prod.snd).flatten, c5, c3, ?_⟩
    unfold extract_cs
    rw [hok]

/-- C6 counterexample record: an alignment whose cs tag is a single
insertion. -/
def c6InsRecord : SamRecord :=
  { query_name := "q".data
    reference_name := "r".data
    query_length := 1
    query_alignment_start := 0
    query_alignment_end := 1
    reference_start := 1
    reference_end := 1
    is_reverse := false
    is_unmapped := false
    cs := "+a".data }

/-- C6 counterexample: for the single-insertion alignment (one token,
`starts = ends = [1]`) the interval `[0, 2)` is rejected by neither
fast-reject test, yet `extract_cs` raises the internal
`start_idx != end_idx for insertion` error instead of returning a
triple. -/
theorem c6_counterexample :
    ∃ al, mkAlignment c6InsRecord = .ok al ∧ al.nops = 1 ∧ (0 : Nat) < 2 ∧
      ¬(al.cs_ops_ends.getD (al.nops - 1) 0 ≤ 0 ∨
        (2 : Nat) ≤ al.cs_ops_starts.getD 0 0) ∧
      extract_cs al 0 2 = .error "start_idx != end_idx for insertion" :=
  ⟨_, rfl, rfl, by decide, by decide, rfl⟩

/-- Concrete record for the C6 witness: cs `:4-tc:1` anchored at target
position 2, so `starts[0] = 2` and `ends[-1] = 9`. -/
def c6Record : SamRecord :=
  { query_name := "q".data
    reference_name := "r".data
    query_length := 7
    query_alignment_start := 0
    query_alignment_end := 7
    reference_start := 2
    reference_end := 9
    is_reverse := false
    is_unmapped := false
    cs := ":4-tc:1".data }

/-- Witness for C6 (amended): the interval `[0, 2)` lies left of the
alignment and is absent; the interval `[3, 8)` overlaps it and yields a
triple. -/
theorem c6_overlap_detection_witness :
    ∃ al, mkAlignment c6Record = .ok al ∧
      extract_cs al 0 2 = .ok none ∧
      ∃ fcs c5 c3, extract_cs al 3 8 = .ok (some (fcs, c5, c3)) := by
  have h1 := c6_overlap_detection c6Record _ 0 2 rfl (by decide) (by decide)
  have h2 := c6_overlap_detection c6Record _ 3 8 rfl (by decide) (by decide)
  exact ⟨_, rfl, h1.1 (by decide), h2.2 (by decide) (by decide) (by decide)⟩

/-! ## Claim C1: length conservation -/

theorem bind_inv {α β : Type} {x : Except String α} {f : α → Except String β}
    {b : β} (h : (x >>= f) = .ok b) : ∃ a, x = .ok a ∧ f a = .ok b := by
  cases x with
  | error msg => rw [error_bind] at h; cases h
  | ok a => rw [ok_bind] at h; exact ⟨a, rfl, h⟩

/-- Inversion of the final length-conservation assertion: a successful
return reproduces its inputs and certifies the conserved sum. -/
theorem extractFinalize_inv {frags res : List (Nat × List Char)}
    {clip5 clip3 start e c5 c3 : Nat}
    (h : extractFinalize frags clip5 clip3 start e =
      .ok (some (res, c5, c3))) :
    res = frags ∧ c5 = clip5 ∧ c3 = clip3 ∧
    ∃ toks ls, splitCs (frags.map Prod.snd).flatten = some toks ∧
      toks.mapM cs_op_len_target = some ls ∧
      ls.sum + clip5 + clip3 = e - start := by
  unfold extractFinalize at h
  split at h
  · cases h
  · rename_i toks hsp
    split at h
    · cases h
    · rename_i ls hmm
      split at h
      · rename_i hsum
        simp only [Except.ok.injEq, Option.some.injEq, Prod.mk.injEq] at h
        exact ⟨h.1.symm, h.2.1.symm, h.2.2.symm, toks, ls, hsp, hmm, hsum⟩
      · cases h

/-- Every successful non-absent result of `extract_cs_frags` passes
through `extractFinalize`, so its fragments satisfy the conserved
sum. -/
theorem extract_frags_inv {al : Alignment} {start e : Nat}
    {frags : List (Nat × List Char)} {c5 c3 : Nat}
    (h : extract_cs_frags al start e = .ok (some (frags, c5, c3))) :
    ∃ toks ls, splitCs (frags.map Prod.snd).flatten = some toks ∧
      toks.mapM cs_op_len_target = some ls ∧
      ls.sum + c5 + c3 = e - start := by
  unfold extract_cs_frags at h
  split at h
  · cases h
  · obtain ⟨mx, hmx, h⟩ := bind_inv h
    split at h
    · simp at h
    · obtain ⟨mn, hmn, h⟩ := bind_inv h
      split at h
      · simp at h
      · obtain ⟨⟨frags0, clip5⟩, hS, h⟩ := bind_inv h
        dsimp only at h
        obtain ⟨⟨endFrag, clip3⟩, hE, h⟩ := bind_inv h
        dsimp only at h
        split at h
        · obtain ⟨fr, hF, h⟩ := bind_inv h
          obtain ⟨hfr, hc5, hc3, toks, ls, hsp, hmm, hsum⟩ :=
            extractFinalize_inv h
          subst hfr hc5 hc3
          exact ⟨toks, ls, hsp, hmm, hsum⟩
        · rw [ok_bind] at h
          obtain ⟨hfr, hc5, hc3, toks, ls, hsp, hmm, hsum⟩ :=
            extractFinalize_inv h
          subst hfr hc5 hc3
          exact ⟨toks, ls, hsp, hmm, hsum⟩

/-- C1: for every constructed Alignment record, whenever
`extract_cs(start, end)` returns a triple `(feature_cs, clip5, clip3)`
rather than `None`, the feature cs string tokenizes, every token has a
target length, and the sum of those target lengths plus `clip5` plus
`clip3` equals `end - start`. -/
theorem c1_length_conservation (sa : SamRecord) (al : Alignment)
    (start e : Nat) (fcs : List Char) (c5 c3 : Nat)
    (_hmk : mkAlignment sa = .ok al)
    (hok : extract_cs al start e = .ok (some (fcs, c5, c3))) :
    ∃ toks ls, splitCs fcs = some toks ∧
      toks.mapM cs_op_len_target = some ls ∧
      ls.sum + c5 + c3 = e - start := by
  unfold extract_cs at hok
  split at hok
  · rename_i frags c5' c3' heq
    simp only [Except.ok.injEq, Option.some.injEq, Prod.mk.injEq] at hok
    obtain ⟨h1, h2, h3⟩ := hok
    subst h1 h2 h3
    exact extract_frags_inv heq
  · cases hok
  · cases hok

/-- Concrete record for the C1 witness (cs `:4-tc:1` anchored at
target position 2). -/
def c1Record : SamRecord :=
  { query_name := "q".data
    reference_name := "r".data
    query_length := 7
    query_alignment_start := 0
    query_alignment_end := 7
    reference_start := 2
    reference_end := 9
    is_reverse := false
    is_unmapped := false
    cs := ":4-tc:1".data }

/-- Witness for C1: the record with cs `:4-tc:1` anchored at 2,
extracted over `[3, 8)`. -/
theorem c1_length_conservation_witness :
    ∃ al fcs c5 c3 toks ls,
      mkAlignment c1Record = .ok al ∧
      extract_cs al 3 8 = .ok (some (fcs, c5, c3)) ∧
      splitCs fcs = some toks ∧
      toks.mapM cs_op_len_target = some ls ∧
      ls.sum + c5 + c3 = 8 - 3 := by
  obtain ⟨toks, ls, h1, h2, h3⟩ :=
    c1_length_conservation c1Record _ 3 8 _ _ _ rfl rfl
  exact ⟨_, _, _, _, toks, ls, rfl, rfl, h1, h2, h3⟩

/-! ## Claim C2: insertion at a feature boundary -/

/-- C2: an insertion token whose zero-length target interval sits at
coordinate `p` strictly inside the alignment is included in the
fragments of `extract_cs(a, p)` for any `a < p`, and excluded from the
fragments of `extract_cs(p, b)` for any `b > p`: the insertion is
assigned to the end of the lower-coordinate feature, never to the start
of the following one. -/
theorem c2_insertion_boundary (sa : SamRecord) (al : Alignment)
    (ins p a b : Nat) (hmk : mkAlignment sa = .ok al)
    (hins_lt : ins < al.nops)
    (hty : csOpType (al.cs_ops.getD ins []) = some .insertion)
    (hp : al.cs_ops_starts.getD ins 0 = p)
    (hp0 : al.cs_ops_starts.getD 0 0 < p)
    (hpl : p < al.cs_ops_ends.getD (al.nops - 1) 0)
    (ha : a < p) (hb : p < b) :
    (∃ frags c5 c3,
      extract_cs_frags al a p = .ok (some (frags, c5, c3)) ∧
      extract_cs al a p =
        .ok (some ((frags.map Prod.snd).flatten, c5, c3)) ∧
      (ins, al.cs_ops.getD ins []) ∈ frags) ∧
    (∃ frags c5 c3,
      extract_cs_frags al p b = .ok (some (frags, c5, c3)) ∧
      extract_cs al p b =
        .ok (some ((frags.map Prod.snd).flatten, c5, c3)) ∧
      ∀ pr ∈ frags, pr.1 ≠ ins) := by
  have inv := mkAlignment_inv hmk
  have hn : 1 ≤ al.nops := by omega
  have hins0 : ins ≠ 0 := by
    intro h0
    rw [h0] at hp
    omega
  have hlen0 : al.cs_ops_lengths_target.getD ins 0 = 0 := by
    have h1 := mapM_len_getD inv.lens_eq ins
      (by rw [← inv.nops_eq]; exact hins_lt)
    have h2 : cs_op_len_target (al.cs_ops.getD ins []) = some 0 := by
      unfold cs_op_len_target
      rw [hty]
    rw [h1] at h2
    simpa using h2
  have hends_ins : al.cs_ops_ends.getD ins 0 = p := by
    rw [inv.ends_starts_len hins_lt, hp, hlen0]
    omega
  have hends_prev : al.cs_ops_ends.getD (ins - 1) 0 = p := by
    obtain ⟨im, rfl⟩ : ∃ im, ins = im + 1 := ⟨ins - 1, by omega⟩
    have hss := inv.starts_succ (show im + 1 < al.nops from hins_lt)
    simp only [Nat.add_sub_cancel]
    rw [← hss]
    exact hp
  have hnopsends : al.cs_ops_ends.length = al.nops := (inv.nops_ends).symm
  have hsa_lt : searchsortedRight al.cs_ops_ends a < ins := by
    by_contra hcon
    have hle : ins ≤ searchsortedRight al.cs_ops_ends a := Nat.not_lt.mp hcon
    have hbelow := searchsortedRight_below inv.ends_mono_arr
      (show ins - 1 < searchsortedRight al.cs_ops_ends a by omega)
    rw [hends_prev] at hbelow
    omega
  have hssp_ge : ins + 1 ≤ searchsortedRight al.cs_ops_ends p := by
    by_contra hcon
    have hle : searchsortedRight al.cs_ops_ends p ≤ ins := by omega
    have habove := searchsortedRight_above inv.ends_mono_arr hle
      (by rw [hnopsends]; exact hins_lt)
    rw [hends_ins] at habove
    omega
  have hdeg : ¬(al.nops = 1 ∧
      csOpType (al.cs_ops.getD 0 []) = some .insertion) := by
    intro hcontra
    have h1 := hcontra.1
    omega
  constructor
  · obtain ⟨frags, c5, c3, hok, hbound, hint, hlastm⟩ :=
      extract_frags_ok inv hn ha (by omega) hp0 hdeg
    refine ⟨frags, c5, c3, hok, ?_, ?_⟩
    · unfold extract_cs
      rw [hok]
    · have hei_ge : ins ≤ advanceEndIdx al.cs_ops_ends al.nops p
          (searchsortedRight al.cs_ops_ends p - 1) al.nops :=
        Nat.le_trans (by omega) (adv_ge _ _ _ _ _)
      rcases Nat.eq_or_lt_of_le hei_ge with heq | hlt
      · rw [← heq] at hlastm
        exact hlastm hsa_lt (by rw [hends_ins])
      · exact hint ins hsa_lt hlt
  · obtain ⟨frags, c5, c3, hok, hbound, -, -⟩ :=
      extract_frags_ok inv hn hb hpl (by omega) hdeg
    refine ⟨frags, c5, c3, hok, ?_, ?_⟩
    · unfold extract_cs
      rw [hok]
    · intro pr hpr
      have h1 := (hbound pr hpr).1
      omega

/-- Concrete record for the C2 witness: cs `:2+a:2` anchored at target
position 2, so the insertion token sits at coordinate 4 strictly inside
the alignment `[2, 6)`. -/
def c2Record : SamRecord :=
  { query_name := "q".data
    reference_name := "r".data
    query_length := 5
    query_alignment_start := 0
    query_alignment_end := 5
    reference_start := 2
    reference_end := 6
    is_reverse := false
    is_unmapped := false
    cs := ":2+a:2".data }

/-- Witness for C2: for cs `:2+a:2` anchored at 2 the insertion token
(index 1, coordinate 4) lands in `extract_cs(3, 4)` and not in
`extract_cs(4, 5)`. -/
theorem c2_insertion_boundary_witness :
    ∃ al, mkAlignment c2Record = .ok al ∧
      ((∃ frags c5 c3,
        extract_cs_frags al 3 4 = .ok (some (frags, c5, c3)) ∧
        extract_cs al 3 4 =
          .ok (some ((frags.map Prod.snd).flatten, c5, c3)) ∧
        (1, al.cs_ops.getD 1 []) ∈ frags) ∧
      (∃ frags c5 c3,
        extract_cs_frags al 4 5 = .ok (some (frags, c5, c3)) ∧
        extract_cs al 4 5 =
          .ok (some ((frags.map Prod.snd).flatten, c5, c3)) ∧
        ∀ pr ∈ frags, pr.1 ≠ 1)) := by
  refine ⟨_, rfl, ?_⟩
  exact c2_insertion_boundary c2Record _ 1 4 3 5 rfl (by decide) rfl rfl
    (by decide) (by decide) (by decide) (by decide)

/-! ## Claim C10: zero-token cs strings -/

/-- A mapped SAM record whose cs tag is the empty string, which the
lenient grammar tokenizes to zero tokens. -/
def c10EmptyRecord : SamRecord :=
  { query_name := "q".data
    reference_name := "r".data
    query_length := 0
    query_alignment_start := 0
    query_alignment_end := 0
    reference_start := 2
    reference_end := 9
    is_reverse := false
    is_unmapped := false
    cs := "".data }

/-- C10 counterexample: the empty cs string tokenizes to zero tokens,
yet `Alignment.__init__` fails its starts-length assertion before any
record exists on which `extract_cs` could be called. -/
theorem c10_counterexample :
    splitCs c10EmptyRecord.cs = some [] ∧
    c10EmptyRecord.is_unmapped = false ∧
    mkAlignment c10EmptyRecord = .error "assert nops equals len starts" :=
  ⟨rfl, rfl, rfl⟩

/-- The coordinate state `__init__` computes for a zero-token cs string
just before its failing assertion: no ops, empty `ends`
(`clip5 + cumsum([])` is the empty array), and singleton
`starts = append(clip5, ends[:-1])`. -/
def zeroTokAlignment (clip5 lastpos : Nat) : Alignment :=
  { query_name := []
    target_name := []
    cs := []
    query_clip5 := 0
    query_clip3 := 0
    target_clip5 := clip5
    target_lastpos := lastpos
    orientation := '+'
    cs_ops := []
    cs_ops_lengths_target := []
    cs_ops_ends := []
    cs_ops_starts := [clip5]
    nops := 0 }

/-- C10 (amended): for every mapped SAM record whose cs string
tokenizes to zero tokens, `Alignment.__init__` itself raises (the
`nops == len(starts)` assertion fails, `starts` having one element),
so no zero-token Alignment record is ever constructed; on the
coordinate state `__init__` would have assembled, every
`extract_cs(start, end)` with `start < end` would indeed raise numpy's
empty-reduction error rather than return `None`. -/
theorem c10_zero_token :
    (∀ sa : SamRecord, sa.is_unmapped = false → splitCs sa.cs = some [] →
      mkAlignment sa = .error "assert nops equals len starts") ∧
    (∀ clip5 lastpos start e : Nat, start < e →
      extract_cs (zeroTokAlignment clip5 lastpos) start e =
        .error "zero-size array to reduction operation") := by
  constructor
  · intro sa hum hsplit
    unfold mkAlignment
    rw [hum, hsplit]
    rfl
  · intro clip5 lastpos start e hse
    unfold extract_cs extract_cs_frags
    rw [if_neg (by omega : ¬ e ≤ start)]
    rw [show npAmax (zeroTokAlignment clip5 lastpos).cs_ops_ends =
      .error "zero-size array to reduction operation" from rfl]
    rw [error_bind]

/-- Witness for C10 (amended), at the empty-cs record and the
zero-token coordinate state anchored at 2. -/
theorem c10_zero_token_witness :
    mkAlignment c10EmptyRecord = .error "assert nops equals len starts" ∧
    extract_cs (zeroTokAlignment 2 9) 0 3 =
      .error "zero-size array to reduction operation" :=
  ⟨c10_zero_token.1 c10EmptyRecord rfl rfl,
   c10_zero_token.2 2 9 0 3 (by decide)⟩
